import Mathlib

/-!
Verification of the text-extraction pipeline of `horoscope.py`.

The development shallowly embeds the pure, string-processing core of the
script: the paragraph repair regexes, the boilerplate filter, the body
selection (`max` over candidates), the noise prune, the line cleanup, the
full `parse_post` function, the message-length cap from `main`, and
`extract_mk_images`.  HTML documents are modelled as trees of elements and
text nodes; `get_text(sep, strip=True)` is modelled following
BeautifulSoup: collect every string of the subtree in document order,
strip each, drop the ones that become empty, and join with the separator.

Python strings are modelled as `String`/`List Char` (Python `len` counts
code points, as does `String.length`).  `\s` of Python's `re` module is
modelled by `pyIsSpace` (the ASCII whitespace class; the exotic Unicode
space characters do not occur in any input considered here), and `\d` by
the ASCII digits, matching `Char.isDigit`.
-/

/-- Python `\s` (ASCII part): space, tab, newline, carriage return,
vertical tab, form feed. -/
def pyIsSpace (c : Char) : Bool :=
  c = ' ' || c = '\t' || c = '\n' || c = '\x0d' || c = '\x0b' || c = '\x0c'

/-- Python `str.strip()` on a character list: drop leading and trailing
whitespace. -/
def pyStripL (l : List Char) : List Char :=
  ((l.dropWhile pyIsSpace).reverse.dropWhile pyIsSpace).reverse

/-- Python `str.strip()` on a `String`. -/
def pyStrip (s : String) : String := ⟨pyStripL s.data⟩

/-- Substring test: does `pat` occur (contiguously) inside `l`?
Models Python `pat in s` / `re.search` on a literal pattern. -/
def hasSubstr (pat : List Char) : List Char → Bool
  | [] => pat.isEmpty
  | c :: rest => pat.isPrefixOf (c :: rest) || hasSubstr pat rest

/-- Python `pat in s` for strings. -/
def strContains (s pat : String) : Bool := hasSubstr pat.data s.data

/-- The punctuation class `[.,:;?!%]` of the first repair regex. -/
def isPunct1 (c : Char) : Bool :=
  c = '.' || c = ',' || c = ':' || c = ';' || c = '?' || c = '!' || c = '%'

/-- Is the first non-whitespace character of `l` a `[.,:;?!%]` punctuation
mark?  (Used to decide whether a whitespace character is deleted by
`re.sub(r"\s+([.,:;?!%])", r"\1", p)`.) -/
def punctAfterWs (l : List Char) : Bool :=
  match l.dropWhile pyIsSpace with
  | c :: _ => isPunct1 c
  | [] => false

/-- Generic shape of the first two repair substitutions: delete every
whitespace character from which the rest of the list satisfies `cond`
(a condition that only looks at the text after skipping further
whitespace).  `re.sub(r"\s+‹X›", r"‹X›", p)` deletes every maximal
whitespace run immediately followed by `‹X›`; character-wise, exactly the
whitespace characters whose forward view (after more whitespace) starts
with `‹X›` are deleted. -/
def delWs (cond : List Char → Bool) : List Char → List Char
  | [] => []
  | c :: rest =>
    if pyIsSpace c && cond rest then delWs cond rest
    else c :: delWs cond rest

/-- Models `re.sub(r"\s+([.,:;?!%])", r"\1", p)`: every maximal whitespace run
that is immediately followed by one of `.,:;?!%` is deleted. -/
def pass1 : List Char → List Char := delWs punctAfterWs

/-- Does `l`, after skipping whitespace, continue with the literal "년생"? -/
def yearsAfterWs (l : List Char) : Bool :=
  match l.dropWhile pyIsSpace with
  | c :: d :: _ => c = '년' && d = '생'
  | _ => false

/-- Models `re.sub(r"\s+년생", r"년생", p)`: every maximal whitespace run
immediately followed by the literal "년생" is deleted. -/
def pass2 : List Char → List Char := delWs yearsAfterWs

/-- Final step of the `\s+(\d+)%\s*\.` matcher: a literal `.` at the
head, returning the digit group `d` and the remainder. -/
def dotMatch (d Z3 : List Char) : Option (List Char × List Char) :=
  match Z3 with
  | b :: l3 => if b = '.' then some (d, l3) else none
  | [] => none

/-- The tail of the `\s+(\d+)%\s*\.` matcher after the digit group `d`:
a literal `%`, then a possibly empty whitespace run, then a literal `.`.
On success returns the digit group together with the remainder. -/
def pctMatch (d Z : List Char) : Option (List Char × List Char) :=
  match Z with
  | a :: Z2 =>
    if a = '%' then dotMatch d (Z2.dropWhile pyIsSpace)
    else none
  | [] => none

/-- The part of the `\s+(\d+)%\s*\.` matcher after the leading whitespace:
a nonempty digit run, then `%`, then possibly empty whitespace, then `.`.
Returns the captured digit group and the remainder after the match. -/
def innerMatch (l1 : List Char) : Option (List Char × List Char) :=
  if (l1.takeWhile Char.isDigit).isEmpty then none
  else pctMatch (l1.takeWhile Char.isDigit) (l1.dropWhile Char.isDigit)

/-- One attempted match of `\s+(\d+)%\s*\.` at the head of `l`.
The greedy/backtracking semantics of the regex collapse to: a nonempty
whitespace run, then a nonempty digit run, then `%`, then a possibly
empty whitespace run, then `.`. -/
def tryMatch3 (l : List Char) : Option (List Char × List Char) :=
  if (l.takeWhile pyIsSpace).isEmpty then none
  else innerMatch (l.dropWhile pyIsSpace)

/-- Fuelled scanner for `re.sub(r"\s+(\d+)%\s*\.", r" \1%.", p)`:
scan left to right; at each position try the pattern; on a match emit the
replacement `" \1%."` and continue after the match, otherwise keep the
character.  The fuel is an upper bound on the number of scan steps; it is
always instantiated with the length of the list. -/
def pass3F : Nat → List Char → List Char
  | 0, l => l
  | _ + 1, [] => []
  | f + 1, c :: rest =>
    match tryMatch3 (c :: rest) with
    | some (d, r2) => ' ' :: (d ++ '%' :: '.' :: pass3F f r2)
    | none => c :: pass3F f rest

/-- Models `re.sub(r"\s+(\d+)%\s*\.", r" \1%.", p)`. -/
def pass3 (l : List Char) : List Char := pass3F l.length l

/-- The per-paragraph punctuation/spacing repair of `parse_post`
(source lines 313-319): the three substitutions applied in order. -/
def fixParagraphL (l : List Char) : List Char := pass3 (pass2 (pass1 l))

/-- The repair pass on a `String` paragraph. -/
def fixParagraph (s : String) : String := ⟨fixParagraphL s.data⟩

/-! ### HTML document model

A parsed document is a forest of nodes: text nodes (`NavigableString`s)
and element nodes carrying their tag name, the raw `class` attribute
value, the `id` attribute value (`""` encodes an absent attribute; all
attribute selectors used by the script test nonempty substrings, for
which the encodings agree), and children.  `Node`/`NodeList` are mutual
so that structural recursion over the tree is available. -/

mutual
inductive Node where
  | text (s : String)
  | elem (tag : String) (classAttr : String) (idAttr : String) (children : NodeList)
inductive NodeList where
  | nil
  | cons (n : Node) (rest : NodeList)
end

/-- Build a `NodeList` from a `List Node` (for readable document literals). -/
def NodeList.ofList : List Node → NodeList
  | [] => .nil
  | n :: rest => .cons n (NodeList.ofList rest)

/-- Models `sep.join(strings)` on character lists. -/
def intercalateL (sep : List Char) : List (List Char) → List Char
  | [] => []
  | [x] => x
  | x :: xs => x ++ sep ++ intercalateL sep xs

mutual
/-- The `stripped_strings` of BeautifulSoup's `get_text(sep, strip=True)`:
every string of the subtree in document order, stripped, dropping the ones
that strip to empty. -/
def textPieces : Node → List (List Char)
  | .text s => if (pyStripL s.data).isEmpty then [] else [pyStripL s.data]
  | .elem _ _ _ cs => textPiecesL cs

def textPiecesL : NodeList → List (List Char)
  | .nil => []
  | .cons n rest => textPieces n ++ textPiecesL rest
end

/-- Models `el.get_text("\n", strip=True)` as a character list. -/
def getTextNL (n : Node) : List Char := intercalateL ['\n'] (textPieces n)

/-- Models `len(el.get_text(" ", strip=True))`: the key used by `max` when the
body container is selected. -/
def textLen (n : Node) : Nat := (intercalateL [' '] (textPieces n)).length

/-- Models `soup.get_text("\n", strip=True)` over the whole document. -/
def docTextNL (doc : NodeList) : List Char := intercalateL ['\n'] (textPiecesL doc)

/-- Split a `class` attribute value into whitespace-separated tokens
(the token list BeautifulSoup stores and CSS `.tok` matches against);
`cur` is the reversed token being accumulated. -/
def splitToksGo (cur : List Char) : List Char → List (List Char)
  | [] => if cur.isEmpty then [] else [cur.reverse]
  | c :: rest =>
    if pyIsSpace c then
      if cur.isEmpty then splitToksGo [] rest
      else cur.reverse :: splitToksGo [] rest
    else splitToksGo (c :: cur) rest

def splitToks (l : List Char) : List (List Char) := splitToksGo [] l

/-- CSS tag selector (`article`, `div`, ...) on a node. -/
def tagIs (t : String) : Node → Bool
  | .text _ => false
  | .elem tag _ _ _ => tag = t

/-- CSS class selector `.tok`: the `class` attribute contains the token. -/
def hasClassTok (tok : String) : Node → Bool
  | .text _ => false
  | .elem _ cls _ _ => (splitToks cls.data).contains tok.data

/-- CSS id selector `#i`. -/
def idIs (i : String) : Node → Bool
  | .text _ => false
  | .elem _ _ idA _ => idA = i

mutual
/-- Models `select_one`: first node of the subtree, in document (preorder)
order, satisfying `p`. -/
def findFirst (p : Node → Bool) : Node → Option Node
  | .text s => if p (.text s) then some (.text s) else none
  | .elem t c i cs =>
      if p (.elem t c i cs) then some (.elem t c i cs)
      else findFirstL p cs

def findFirstL (p : Node → Bool) : NodeList → Option Node
  | .nil => none
  | .cons n rest =>
      match findFirst p n with
      | some r => some r
      | none => findFirstL p rest
end

mutual
/-- Models `select_one` for a descendant combinator `anc tgt`: first node in
document order satisfying `tgt` that has a proper ancestor satisfying
`anc`; `inAnc` records whether such an ancestor has been passed. -/
def findFirstDesc (anc tgt : Node → Bool) (inAnc : Bool) : Node → Option Node
  | .text _ => none
  | .elem t c i cs =>
      if inAnc && tgt (.elem t c i cs) then some (.elem t c i cs)
      else findFirstDescL anc tgt (inAnc || anc (.elem t c i cs)) cs

def findFirstDescL (anc tgt : Node → Bool) (inAnc : Bool) : NodeList → Option Node
  | .nil => none
  | .cons n rest =>
      match findFirstDesc anc tgt inAnc n with
      | some r => some r
      | none => findFirstDescL anc tgt inAnc rest
end

mutual
/-- Models `soup.find_all([...])` (no limit): all elements with one of the given
tag names, in document (preorder) order. -/
def findAllTags (tags : List String) : Node → List Node
  | .text _ => []
  | .elem t c i cs =>
      (if tags.contains t then [Node.elem t c i cs] else []) ++ findAllTagsL tags cs

def findAllTagsL (tags : List String) : NodeList → List Node
  | .nil => []
  | .cons n rest => findAllTags tags n ++ findAllTagsL tags rest
end

mutual
/-- Models `for bad in body.select(sel): bad.decompose()`: remove every subtree
of the body whose root satisfies `p` (the body node itself is not
a candidate, matching CSS selection of descendants). -/
def pruneBy (p : Node → Bool) : Node → Node
  | .text s => .text s
  | .elem t c i cs => .elem t c i (pruneByL p cs)

def pruneByL (p : Node → Bool) : NodeList → NodeList
  | .nil => .nil
  | .cons n rest =>
      if p n then pruneByL p rest
      else .cons (pruneBy p n) (pruneByL p rest)
end

/-- The tag-based noise selector of `parse_post` (source line 272):
`script, style, noscript, iframe, header, footer, nav, form`. -/
def badTag (n : Node) : Bool :=
  tagIs "script" n || tagIs "style" n || tagIs "noscript" n || tagIs "iframe" n ||
  tagIs "header" n || tagIs "footer" n || tagIs "nav" n || tagIs "form" n

/-- The attribute-based noise selector of `parse_post` (source line 274):
`[class*='share'], [class*='social'], [class*='ad'], [id*='share'],
[id*='ad']` — note there is no `[id*='social']` in the source. -/
def badAttr (n : Node) : Bool :=
  match n with
  | .text _ => false
  | .elem _ cls idA _ =>
      hasSubstr "share".data cls.data || hasSubstr "social".data cls.data ||
      hasSubstr "ad".data cls.data || hasSubstr "share".data idA.data ||
      hasSubstr "ad".data idA.data

/-- The two sequential `decompose` loops of `parse_post`
(source lines 271-275): tags first, then attribute selectors.
`decompose` mutates the selected body in place. -/
def pruneNoise (body : Node) : Node := pruneBy badAttr (pruneBy badTag body)

/-- The six structural selectors of `parse_post` (source line 224), each
via `select_one`; matches are pooled in selector-list order. -/
def selectorCandidates (doc : NodeList) : List Node :=
  [findFirstL (hasClassTok "xe_content") doc,
   findFirstL (hasClassTok "read_body") doc,
   findFirstL (tagIs "article") doc,
   findFirstDescL (hasClassTok "board_read") (hasClassTok "rd_body") false doc,
   findFirstL (hasClassTok "read") doc,
   findFirstL (idIs "content") doc].filterMap id

/-- The block-level fallback scan (source line 238):
`soup.find_all(['div','article','section','main'], limit=30)`. -/
def blocksOf (doc : NodeList) : List Node :=
  (findAllTagsL ["div", "article", "section", "main"] doc).take 30

/-- Python `max(xs, key=f)` starting from accumulator `acc`: the
accumulator is replaced only when a strictly greater key appears, so on
ties the earlier element wins. -/
def pyMaxGo {α : Type} (f : α → Nat) : α → List α → α
  | acc, [] => acc
  | acc, y :: ys => pyMaxGo f (if f acc < f y then y else acc) ys

/-- Models `body = max(candidates, key=lambda el: len(el.get_text(" ", strip=True)))`
(source line 268); `none` when the candidate list is empty. -/
def selectBody : List Node → Option Node
  | [] => none
  | x :: xs => some (pyMaxGo textLen x xs)

/-! ### Line-level cleanup -/

/-- The `[ \t]` class of `re.sub(r"[ \t]{2,}", " ", ln)`. -/
def isSpTab (c : Char) : Bool := c = ' ' || c = '\t'

/-- Models `re.sub(r"[ \t]{2,}", " ", ln)`: every run of two or more
spaces/tabs collapses to one space; a single space or tab is kept as is.
`inRun` records that the current space/tab run already had an earlier
character. -/
def squeezeGo (inRun : Bool) : List Char → List Char
  | [] => []
  | c :: rest =>
    if isSpTab c then
      match rest with
      | d :: _ =>
          if isSpTab d then squeezeGo true rest
          else (if inRun then ' ' else c) :: squeezeGo false rest
      | [] => [if inRun then ' ' else c]
    else c :: squeezeGo false rest

def squeeze (l : List Char) : List Char := squeezeGo false l

/-- Python `str.splitlines()` restricted to the `\n`, `\r`, `\r\n`
line terminators (the ones producible by this pipeline's inputs);
no trailing empty line for a trailing terminator. -/
def splitLinesL : List Char → List (List Char)
  | [] => []
  | c :: rest =>
    if c = '\n' then [] :: splitLinesL rest
    else if c = '\x0d' then
      match rest with
      | '\n' :: r => [] :: splitLinesL r
      | [] => [[]]
      | d :: r => [] :: splitLinesL (d :: r)
    else
      match splitLinesL rest with
      | [] => [[c]]
      | ln :: lns => (c :: ln) :: lns

/-- The blank-collapsing loop of `parse_post` (source lines 285-295):
runs of blank lines shrink to a single blank line, non-blank lines get
their space/tab runs squeezed; `prevBlank` is the loop's flag. -/
def collapseGo (prevBlank : Bool) : List (List Char) → List (List Char)
  | [] => []
  | ln :: rest =>
    if ln.isEmpty then
      if prevBlank then collapseGo true rest
      else [] :: collapseGo true rest
    else squeeze ln :: collapseGo false rest

/-- Lines of a rendered text after the strip/collapse cleanup
(`lines = [ln.strip() for ln in text.splitlines()]` plus the loop). -/
def cleanLines (text : List Char) : List (List Char) :=
  collapseGo false ((splitLinesL text).map pyStripL)

/-- The paragraph-merging loop of `parse_post` (source lines 297-310):
consecutive non-blank lines join with single spaces; a blank line closes
the paragraph.  `cur` holds the current paragraph's lines in reverse. -/
def mergeGo (cur : List (List Char)) : List (List Char) → List (List Char)
  | [] => if cur.isEmpty then [] else [pyStripL (intercalateL [' '] cur.reverse)]
  | ln :: rest =>
    if ln.isEmpty then
      if cur.isEmpty then mergeGo [] rest
      else pyStripL (intercalateL [' '] cur.reverse) :: mergeGo [] rest
    else mergeGo (ln :: cur) rest

/-- The boilerplate markers `이 게시물|공유|댓글|출처` (source line 324). -/
def markerList : List (List Char) :=
  ["이 게시물".data, "공유".data, "댓글".data, "출처".data]

/-- Models `re.search(r"이 게시물|공유|댓글|출처", p)` as a Boolean. -/
def hasMarker (p : List Char) : Bool := markerList.any (fun m => hasSubstr m p)

/-- The drop condition of the boilerplate filter (source line 324):
`len(p) < 120 and re.search(r"이 게시물|공유|댓글|출처", p)`. -/
def dropBoiler (p : List Char) : Bool := decide (p.length < 120) && hasMarker p

/-- The boilerplate-filtering loop of `parse_post` (source lines 322-328). -/
def filterBoiler : List (List Char) → List (List Char)
  | [] => []
  | p :: ps => if dropBoiler p then filterBoiler ps else p :: filterBoiler ps

/-- Steps 1-6 of the reconstruction on the pruned body: render to text,
clean lines, merge paragraphs, repair punctuation, filter boilerplate,
join with blank lines and strip (source lines 282-330). -/
def reconstructText (pruned : Node) : List Char :=
  pyStripL (intercalateL ['\n', '\n']
    (filterBoiler ((mergeGo [] (cleanLines (getTextNL pruned))).map fixParagraphL)))

/-- The no-candidate branch of `parse_post` (source lines 244-265):
whole-document text with line-level cleanup only. -/
def normalizeFullDoc (doc : NodeList) : String :=
  ⟨pyStripL (intercalateL ['\n'] (cleanLines (docTextNL doc)))⟩

/-- Models `parse_post(html)` (source lines 221-361) on a parsed document.
The fallback for empty cleaned text re-renders `body` — which
`decompose` has already pruned in place — so it uses `pruneNoise body`,
not the original `body`. -/
def candidatePool (doc : NodeList) : List Node :=
  if (selectorCandidates doc).isEmpty then blocksOf doc else selectorCandidates doc

def parse_post (doc : NodeList) : String :=
  match selectBody (candidatePool doc) with
  | none => normalizeFullDoc doc
  | some body =>
      if (reconstructText (pruneNoise body)).isEmpty then
        ⟨pyStripL (getTextNL (pruneNoise body))⟩
      else ⟨reconstructText (pruneNoise body)⟩

/-! ### Message cap and image extraction -/

/-- Constant `MAX_MESSAGE_LEN` (source line 38). -/
def MAX_MESSAGE_LEN : Nat := 14000

/-- The fixed truncation notice appended by `main` (source line 588). -/
def truncationNotice : String :=
  "\n\n(메시지가 길어 일부만 전송됩니다. 원문에서 전체 확인하세요.)"

/-- Python slicing `m[:n]`. -/
def pyTake (s : String) (n : Nat) : String := ⟨s.data.take n⟩

/-- The per-job length cap of `main` (source lines 584-588). -/
def capMessage (m : String) : String :=
  if m.length > MAX_MESSAGE_LEN then pyTake m MAX_MESSAGE_LEN ++ truncationNotice
  else m

/-- An `<img>` tag as seen by `extract_mk_images`: its `src`, `data-src`
and `data-original` attributes (`none` = absent). -/
structure ImgTag where
  src : Option String
  dataSrc : Option String
  dataOriginal : Option String

/-- Python `a or b or ...` over attribute lookups, where both `None` and
`""` are falsy. -/
def firstTruthy : List (Option String) → Option String
  | [] => none
  | none :: rest => firstTruthy rest
  | some s :: rest => if s = "" then firstTruthy rest else some s

/-- Models `img.get("src") or img.get("data-src") or img.get("data-original")`. -/
def getSrc (img : ImgTag) : Option String :=
  firstTruthy [img.src, img.dataSrc, img.dataOriginal]

/-- One alternative of `\.(png|jpe?g|webp)(\?|$)` (case-insensitive via
ASCII lowering, as in `re.I` on these ASCII patterns), starting right
after the dot. -/
def tryExt (ext : List Char) (rest : List Char) : Bool :=
  ((rest.take ext.length).map Char.toLower == ext) &&
  (match rest.drop ext.length with
   | [] => true
   | '?' :: _ => true
   | _ => false)

/-- Does a match of `\.(png|jpe?g|webp)(\?|$)` start at the head of `l`? -/
def extAt : List Char → Bool
  | c :: rest =>
      c = '.' &&
      (tryExt "png".data rest || tryExt "jpg".data rest ||
       tryExt "jpeg".data rest || tryExt "webp".data rest)
  | [] => false

/-- Models `re.search(r"\.(png|jpe?g|webp)(\?|$)", url, re.I)` as a Boolean. -/
def extOkSearch : List Char → Bool
  | [] => false
  | c :: rest => extAt (c :: rest) || extOkSearch rest

/-- Models `any(token in abs_url.lower() for token in ["logo","icon","sprite","blank"])`. -/
def badToken (url : List Char) : Bool :=
  ["logo".data, "icon".data, "sprite".data, "blank".data].any
    (fun t => hasSubstr t (url.map Char.toLower))

/-- One iteration of the candidate-collection loop of
`extract_mk_images` (source lines 194-205): given the resolved `src`
attribute (or `none`), either skip or prepend the absolute URL. -/
def imgStep (urljoin : String → String → String) (base : String)
    (osrc : Option String) (tail : List String) : List String :=
  match osrc with
  | none => tail
  | some src =>
      if "data:".data.isPrefixOf src.data then tail
      else
        if extOkSearch (urljoin base src).data && !badToken (urljoin base src).data then
          urljoin base src :: tail
        else tail

/-- The candidate-collection loop of `extract_mk_images` (source lines
194-205), over the `<img>` tags of the chosen container in document
order.  `urljoin` is the (external) `urllib.parse.urljoin`, abstracted
as a function parameter. -/
def imgCandidates (urljoin : String → String → String) (base : String) :
    List ImgTag → List String
  | [] => []
  | img :: rest =>
      imgStep urljoin base (getSrc img) (imgCandidates urljoin base rest)

/-- The order-preserving deduplication loop of `extract_mk_images`
(source lines 208-214); `seen` is the set of already-emitted URLs. -/
def dedupFirst (seen : List String) : List String → List String
  | [] => []
  | u :: rest =>
      if seen.contains u then dedupFirst seen rest
      else u :: dedupFirst (u :: seen) rest

/-- Models `extract_mk_images(html, base_url)` (source lines 172-217), given the
`<img>` tags of the selected container in document order: filter,
deduplicate keeping first occurrences, return at most 4. -/
def extract_mk_images (urljoin : String → String → String) (base : String)
    (imgs : List ImgTag) : List String :=
  (dedupFirst [] (imgCandidates urljoin base imgs)).take 4

/-! ### Auxiliary predicates and concrete inputs used by the claims -/

/-- First non-whitespace character of a list, if any. -/
def headAfterWs (l : List Char) : Option Char := (l.dropWhile pyIsSpace).head?

/-- Reformulation of `yearsAfterWs` through the first non-whitespace
character and its immediate successor. -/
def startsYS : List Char → Bool
  | c :: r => c = '년' && decide (r.head? = some '생')
  | [] => false

/-- Fixed points of `delWs cond`: no whitespace character from which the
remainder satisfies `cond`. -/
def noBadG (cond : List Char → Bool) : List Char → Bool
  | [] => true
  | c :: r => !(pyIsSpace c && cond r) && noBadG cond r

/-- Would the `%`-and-period tail of the pattern match at `Z`?  (`Bool`
abstraction of `pctMatch` being a success, independent of the digit
group.) -/
def checkPD : List Char → Bool
  | a :: Z2 => a = '%' && decide (headAfterWs Z2 = some '.')
  | [] => false

/-- No line of the list is an empty line directly following another
empty line (the postcondition of the blank-collapsing loop). -/
def noAdjBlanks : List (List Char) → Bool
  | [] => true
  | [_] => true
  | a :: b :: rest => !(a.isEmpty && b.isEmpty) && noAdjBlanks (b :: rest)

/-- No two adjacent space/tab characters (the postcondition of
`re.sub(r"[ \t]{2,}", " ", ln)`). -/
def noDoubleSpTab : List Char → Bool
  | [] => true
  | [_] => true
  | a :: b :: rest => !(isSpTab a && isSpTab b) && noDoubleSpTab (b :: rest)

/-- The noise-removal predicate as the code implements it, written out
per the amended claim: the listed tags, `class` containing
`share`/`social`/`ad`, or `id` containing `share`/`ad` (no
`id` + `social` case). -/
def noiseSpecAmended (n : Node) : Bool :=
  match n with
  | .text _ => false
  | .elem tag cls idA _ =>
      (tag = "script" || tag = "style" || tag = "noscript" || tag = "iframe" ||
       tag = "header" || tag = "footer" || tag = "nav" || tag = "form") ||
      (strContains cls "share" || strContains cls "social" || strContains cls "ad") ||
      (strContains idA "share" || strContains idA "ad")

/-- The noise-removal predicate as claim C6 words it: the listed tags, or
`class` **or `id`** containing any of `share`/`social`/`ad`.  This is the
claim's version, used to exhibit the divergence on an `id` containing
`social`. -/
def noiseSpecClaim (n : Node) : Bool :=
  match n with
  | .text _ => false
  | .elem tag cls idA _ =>
      (tag = "script" || tag = "style" || tag = "noscript" || tag = "iframe" ||
       tag = "header" || tag = "footer" || tag = "nav" || tag = "form") ||
      (strContains cls "share" || strContains cls "social" || strContains cls "ad") ||
      (strContains idA "share" || strContains idA "social" || strContains idA "ad")

/-- Container whose only child is a `class="share"` block: pruning
empties it, so the fallback fires on an already-empty pruned body. -/
def c1body : Node :=
  Node.elem "div" "xe_content" "" (NodeList.ofList
    [Node.elem "div" "share" "" (NodeList.ofList [Node.text "이 게시물"])])

def c1doc : NodeList := NodeList.ofList [c1body]

/-- The container of the C2 end-to-end scenario. -/
def c2body : Node :=
  Node.elem "div" "xe_content" "" (NodeList.ofList
    [Node.elem "p" "" "" (NodeList.ofList [Node.text "오늘의 운세 입니다 ."]),
     Node.elem "p" "" "" (NodeList.ofList [Node.text "이 게시물을 공유해주세요"])])

def c2doc : NodeList := NodeList.ofList [c2body]

def c3shortNode : Node :=
  Node.elem "div" "" "" (NodeList.ofList [Node.text "short"])

def c3longNode : Node :=
  Node.elem "div" "" "" (NodeList.ofList [Node.text "a much longer text body"])

/-- An element whose `id` (not `class`) contains `social`. -/
def c6social : Node :=
  Node.elem "div" "" "social_links" (NodeList.ofList [Node.text "소셜 링크"])

def c6body : Node :=
  Node.elem "div" "xe_content" "" (NodeList.ofList
    [c6social, Node.elem "p" "" "" (NodeList.ofList [Node.text "본문"])])

/-- A document with no element matching any structural selector and no
`div`/`article`/`section`/`main` block. -/
def c7doc : NodeList :=
  NodeList.ofList [Node.elem "p" "" "" (NodeList.ofList
    [Node.text " hi   there\n\n\nyou "])]

/-- A 200-character paragraph containing the marker "공유". -/
def p200 : List Char := "공유".data ++ List.replicate 198 'a'

/-- A 14001-character message. -/
def longMsg : String := ⟨List.replicate 14001 'a'⟩

def c10imgs : List ImgTag :=
  [⟨some "a.jpg", none, none⟩,
   ⟨some "b.PNG?x=1", none, none⟩,
   ⟨some "a.jpg", none, none⟩,
   ⟨some "logo.png", none, none⟩,
   ⟨some "data:image/png;base64,xyz", none, none⟩,
   ⟨none, some "c.webp", none⟩]

/-! ### Character class facts -/

lemma pyIsSpace_cases {c : Char} (h : pyIsSpace c = true) :
    c = ' ' ∨ c = '\t' ∨ c = '\n' ∨ c = '\x0d' ∨ c = '\x0b' ∨ c = '\x0c' := by
  have := h
  simp only [pyIsSpace, Bool.or_eq_true, decide_eq_true_eq] at this
  tauto

lemma isPunct1_cases {c : Char} (h : isPunct1 c = true) :
    c = '.' ∨ c = ',' ∨ c = ':' ∨ c = ';' ∨ c = '?' ∨ c = '!' ∨ c = '%' := by
  have := h
  simp only [isPunct1, Bool.or_eq_true, decide_eq_true_eq] at this
  tauto

lemma ws_not_digit {c : Char} (h : pyIsSpace c = true) : c.isDigit = false := by
  rcases pyIsSpace_cases h with h | h | h | h | h | h <;> subst h <;> decide

lemma digit_not_ws {c : Char} (h : c.isDigit = true) : pyIsSpace c = false := by
  cases hw : pyIsSpace c
  · rfl
  · rw [ws_not_digit hw] at h; exact absurd h (by decide)

lemma punct_not_digit {c : Char} (h : isPunct1 c = true) : c.isDigit = false := by
  rcases isPunct1_cases h with h | h | h | h | h | h | h <;> subst h <;> decide

lemma digit_not_punct {c : Char} (h : c.isDigit = true) : isPunct1 c = false := by
  cases hp : isPunct1 c
  · rfl
  · rw [punct_not_digit hp] at h; exact absurd h (by decide)

lemma ws_ne_saeng {c : Char} (h : pyIsSpace c = true) : c ≠ '생' := by
  rcases pyIsSpace_cases h with h | h | h | h | h | h <;> subst h <;> decide

lemma ws_ne_nyeon {c : Char} (h : pyIsSpace c = true) : c ≠ '년' := by
  rcases pyIsSpace_cases h with h | h | h | h | h | h <;> subst h <;> decide

lemma digit_ne_nyeon {c : Char} (h : c.isDigit = true) : c ≠ '년' := by
  intro he; subst he; exact absurd h (by decide)

/-! ### `takeWhile` / `dropWhile` helpers -/

lemma takeWhile_append_all {p : Char → Bool} {a : List Char} (b : List Char)
    (h : ∀ x ∈ a, p x = true) : (a ++ b).takeWhile p = a ++ b.takeWhile p := by
  induction a with
  | nil => rfl
  | cons x xs ih =>
      have hx : p x = true := h x (by simp)
      simp only [List.cons_append, List.takeWhile_cons, hx, if_true]
      rw [ih (fun y hy => h y (by simp [hy]))]

lemma dropWhile_append_all {p : Char → Bool} {a : List Char} (b : List Char)
    (h : ∀ x ∈ a, p x = true) : (a ++ b).dropWhile p = b.dropWhile p := by
  induction a with
  | nil => rfl
  | cons x xs ih =>
      have hx : p x = true := h x (by simp)
      simp only [List.cons_append, List.dropWhile_cons, hx, if_true]
      exact ih (fun y hy => h y (by simp [hy]))

lemma takeWhile_cons_false (p : Char → Bool) (c : Char) (l : List Char)
    (h : p c = false) : (c :: l).takeWhile p = [] := by
  simp [List.takeWhile_cons, h]

lemma dropWhile_cons_false (p : Char → Bool) (c : Char) (l : List Char)
    (h : p c = false) : (c :: l).dropWhile p = c :: l := by
  simp [List.dropWhile_cons, h]

/-! ### The first non-whitespace character -/

lemma headAfterWs_cons_ws {c : Char} (l : List Char) (h : pyIsSpace c = true) :
    headAfterWs (c :: l) = headAfterWs l := by
  simp [headAfterWs, List.dropWhile_cons, h]

lemma headAfterWs_cons_nonws {c : Char} (l : List Char) (h : pyIsSpace c = false) :
    headAfterWs (c :: l) = some c := by
  simp [headAfterWs, List.dropWhile_cons, h]

lemma punctAfterWs_eq_head (l : List Char) :
    punctAfterWs l = match headAfterWs l with
      | some c => isPunct1 c
      | none => false := by
  unfold punctAfterWs headAfterWs
  cases l.dropWhile pyIsSpace <;> simp

lemma yearsAfterWs_eq (l : List Char) :
    yearsAfterWs l = startsYS (l.dropWhile pyIsSpace) := by
  unfold yearsAfterWs startsYS
  cases h : l.dropWhile pyIsSpace with
  | nil => simp
  | cons c r => cases r <;> simp

lemma yearsAfterWs_cons_ws {c : Char} (l : List Char) (h : pyIsSpace c = true) :
    yearsAfterWs (c :: l) = yearsAfterWs l := by
  rw [yearsAfterWs_eq, yearsAfterWs_eq, List.dropWhile_cons, if_pos h]

/-! ### Generic facts about `delWs` -/

lemma delWs_nil (cond : List Char → Bool) : delWs cond [] = [] := rfl

lemma delWs_cons (cond : List Char → Bool) (c : Char) (rest : List Char) :
    delWs cond (c :: rest) =
      if pyIsSpace c && cond rest then delWs cond rest
      else c :: delWs cond rest := rfl

lemma delWs_cons_del (cond : List Char → Bool) {c : Char} {rest : List Char}
    (h : (pyIsSpace c && cond rest) = true) :
    delWs cond (c :: rest) = delWs cond rest := by
  rw [delWs_cons, if_pos h]

lemma delWs_cons_keep (cond : List Char → Bool) {c : Char} {rest : List Char}
    (h : (pyIsSpace c && cond rest) = false) :
    delWs cond (c :: rest) = c :: delWs cond rest := by
  rw [delWs_cons, if_neg (by simp [h])]

lemma delWs_headAfterWs (cond : List Char → Bool) (l : List Char) :
    headAfterWs (delWs cond l) = headAfterWs l := by
  induction l with
  | nil => rfl
  | cons c rest ih =>
      cases hb : (pyIsSpace c && cond rest)
      · rw [delWs_cons_keep cond hb]
        cases hw : pyIsSpace c
        · rw [headAfterWs_cons_nonws _ hw, headAfterWs_cons_nonws _ hw]
        · rw [headAfterWs_cons_ws _ hw, headAfterWs_cons_ws _ hw, ih]
      · have hw : pyIsSpace c = true := (Bool.and_eq_true _ _ |>.mp hb).1
        rw [delWs_cons_del cond hb, headAfterWs_cons_ws _ hw, ih]

/-- Structure of the post-whitespace part of a `delWs` image. -/
lemma delWs_dropWhile (cond : List Char → Bool) (l : List Char) :
    (delWs cond l).dropWhile pyIsSpace =
      match l.dropWhile pyIsSpace with
      | [] => []
      | c :: r => c :: delWs cond r := by
  induction l with
  | nil => rfl
  | cons c rest ih =>
      cases hb : (pyIsSpace c && cond rest)
      · rw [delWs_cons_keep cond hb]
        cases hw : pyIsSpace c
        · rw [dropWhile_cons_false _ _ _ hw, dropWhile_cons_false _ _ _ hw]
        · rw [List.dropWhile_cons, if_pos hw, List.dropWhile_cons, if_pos hw, ih]
      · have hw : pyIsSpace c = true := (Bool.and_eq_true _ _ |>.mp hb).1
        rw [delWs_cons_del cond hb, List.dropWhile_cons, if_pos hw, ih]

lemma noBadG_cons (cond : List Char → Bool) (c : Char) (r : List Char) :
    noBadG cond (c :: r) = (!(pyIsSpace c && cond r) && noBadG cond r) := rfl

lemma noBadG_fix (cond : List Char → Bool) :
    ∀ l, noBadG cond l = true → delWs cond l = l := by
  intro l
  induction l with
  | nil => intro _; rfl
  | cons c rest ih =>
      intro h
      unfold noBadG at h
      rcases Bool.and_eq_true _ _ |>.mp h with ⟨h1, h2⟩
      have hb : (pyIsSpace c && cond rest) = false := by
        cases hx : (pyIsSpace c && cond rest)
        · rfl
        · rw [hx] at h1; exact absurd h1 (by decide)
      rw [delWs_cons_keep cond hb, ih h2]

lemma delWs_noBad (cond : List Char → Bool)
    (hc : ∀ r, cond (delWs cond r) = cond r) :
    ∀ l, noBadG cond (delWs cond l) = true := by
  intro l
  induction l with
  | nil => rfl
  | cons c rest ih =>
      cases hb : (pyIsSpace c && cond rest)
      · rw [delWs_cons_keep cond hb]
        unfold noBadG
        rw [ih, hc rest, hb]
        rfl
      · rw [delWs_cons_del cond hb]; exact ih

lemma noBadG_append_right (cond : List Char → Bool) (a b : List Char)
    (h : noBadG cond (a ++ b) = true) : noBadG cond b = true := by
  induction a with
  | nil => exact h
  | cons x xs ih =>
      unfold noBadG at h
      exact ih (Bool.and_eq_true _ _ |>.mp h).2

lemma noBadG_append_nonws (cond : List Char → Bool) (a X : List Char)
    (h : ∀ x ∈ a, pyIsSpace x = false) :
    noBadG cond (a ++ X) = noBadG cond X := by
  induction a with
  | nil => rfl
  | cons x xs ih =>
      have hx : pyIsSpace x = false := h x (by simp)
      show noBadG cond (x :: (xs ++ X)) = _
      rw [noBadG_cons, hx, ih (fun y hy => h y (by simp [hy]))]
      simp

/-! ### Fixed points of `pass1` and `pass2` -/

lemma pass1_punctAfterWs (l : List Char) :
    punctAfterWs (pass1 l) = punctAfterWs l := by
  rw [punctAfterWs_eq_head, punctAfterWs_eq_head]
  rw [show pass1 l = delWs punctAfterWs l from rfl, delWs_headAfterWs]

lemma pass1_noBad (l : List Char) : noBadG punctAfterWs (pass1 l) = true :=
  delWs_noBad punctAfterWs pass1_punctAfterWs l

lemma pass2_head_nyeon {l : List Char} (h : yearsAfterWs l = true) :
    (pass2 l).head? = some '년' := by
  induction l with
  | nil => rw [yearsAfterWs_eq] at h; exact absurd h (by decide)
  | cons c rest ih =>
      cases hw : pyIsSpace c
      · rw [yearsAfterWs_eq, dropWhile_cons_false _ _ _ hw] at h
        cases rest with
        | nil => simp [startsYS] at h
        | cons d rest2 =>
            have hc : c = '년' := by
              have := (Bool.and_eq_true _ _ |>.mp h).1
              simpa using this
            have hb : (pyIsSpace c && yearsAfterWs (d :: rest2)) = false := by
              simp [hw]
            rw [show pass2 (c :: d :: rest2) = c :: pass2 (d :: rest2) from
              delWs_cons_keep _ hb]
            simp [hc]
      · have hy : yearsAfterWs rest = true := by
          rwa [yearsAfterWs_cons_ws _ hw] at h
        have hb : (pyIsSpace c && yearsAfterWs rest) = true := by simp [hw, hy]
        rw [show pass2 (c :: rest) = pass2 rest from delWs_cons_del _ hb]
        exact ih hy

lemma pass2_head_saeng (l : List Char) :
    ((pass2 l).head? = some '생') ↔ (l.head? = some '생') := by
  cases l with
  | nil => exact Iff.rfl
  | cons c rest =>
      cases hb : (pyIsSpace c && yearsAfterWs rest)
      · rw [show pass2 (c :: rest) = c :: pass2 rest from delWs_cons_keep _ hb]
        exact Iff.rfl
      · rcases Bool.and_eq_true _ _ |>.mp hb with ⟨hw, hy⟩
        rw [show pass2 (c :: rest) = pass2 rest from delWs_cons_del _ hb]
        constructor
        · intro hcontra
          rw [pass2_head_nyeon hy] at hcontra
          exact absurd hcontra (by decide)
        · intro hcontra
          have : c = '생' := by simpa using hcontra
          exact absurd this (ws_ne_saeng hw)

lemma pass2_yearsAfterWs (l : List Char) :
    yearsAfterWs (pass2 l) = yearsAfterWs l := by
  rw [yearsAfterWs_eq, yearsAfterWs_eq,
    show pass2 l = delWs yearsAfterWs l from rfl, delWs_dropWhile]
  cases h : l.dropWhile pyIsSpace with
  | nil => rfl
  | cons c r =>
      show startsYS (c :: delWs yearsAfterWs r) = startsYS (c :: r)
      have hds : decide ((delWs yearsAfterWs r).head? = some '생')
          = decide (r.head? = some '생') := by
        simp only [decide_eq_decide]
        exact pass2_head_saeng r
      simp only [startsYS]
      rw [hds]

lemma pass2_noBad (l : List Char) : noBadG yearsAfterWs (pass2 l) = true :=
  delWs_noBad yearsAfterWs pass2_yearsAfterWs l

/-! ### Structure of `tryMatch3` matches -/

lemma dotMatch_nil (d : List Char) : dotMatch d [] = none := rfl

lemma dotMatch_cons (d : List Char) (b : Char) (l3 : List Char) :
    dotMatch d (b :: l3) = if b = '.' then some (d, l3) else none := rfl

lemma pctMatch_nil (d : List Char) : pctMatch d [] = none := rfl

lemma pctMatch_cons (d : List Char) (a : Char) (Z2 : List Char) :
    pctMatch d (a :: Z2) =
      if a = '%' then dotMatch d (Z2.dropWhile pyIsSpace) else none := rfl

lemma dotMatch_some {dArg Z3 d r : List Char} (h : dotMatch dArg Z3 = some (d, r)) :
    d = dArg ∧ Z3 = '.' :: r := by
  cases Z3 with
  | nil => exact absurd h (by simp [dotMatch_nil])
  | cons b l3 =>
      rw [dotMatch_cons] at h
      split at h
      case isTrue hb =>
        have hpair := Option.some.inj h
        have hdq : d = dArg := (congrArg Prod.fst hpair).symm
        have hrq : r = l3 := (congrArg Prod.snd hpair).symm
        subst hb
        exact ⟨hdq, by rw [hrq]⟩
      case isFalse hb => exact absurd h (by simp)

lemma pctMatch_some {dArg Z d r : List Char} (h : pctMatch dArg Z = some (d, r)) :
    d = dArg ∧ ∃ s, Z = '%' :: (s ++ '.' :: r) ∧ ∀ x ∈ s, pyIsSpace x = true := by
  cases Z with
  | nil => exact absurd h (by simp [pctMatch_nil])
  | cons a Z2 =>
      rw [pctMatch_cons] at h
      split at h
      case isTrue ha =>
        rcases dotMatch_some h with ⟨hdq, hd2⟩
        subst ha
        refine ⟨hdq, Z2.takeWhile pyIsSpace, ?_, ?_⟩
        · have e2 : Z2 = Z2.takeWhile pyIsSpace ++ '.' :: r := by
            conv_lhs => rw [← List.takeWhile_append_dropWhile pyIsSpace Z2]
            rw [hd2]
          conv_lhs => rw [e2]
        · intro x hx
          exact List.mem_takeWhile_imp hx
      case isFalse ha => exact absurd h (by simp)

lemma innerMatch_some {l1 d r : List Char} (h : innerMatch l1 = some (d, r)) :
    ∃ s, l1 = d ++ '%' :: (s ++ '.' :: r) ∧ d ≠ [] ∧
      (∀ x ∈ d, x.isDigit = true) ∧ (∀ x ∈ s, pyIsSpace x = true) := by
  unfold innerMatch at h
  split at h
  · exact absurd h (by simp)
  · rename_i hne
    rcases pctMatch_some h with ⟨hdq, s, hz, hs⟩
    refine ⟨s, ?_, ?_, ?_, ?_⟩
    · conv_lhs => rw [← List.takeWhile_append_dropWhile Char.isDigit l1]
      rw [hz, ← hdq]
    · rw [hdq]
      intro he
      rw [he] at hne
      exact hne rfl
    · intro x hx
      rw [hdq] at hx
      exact List.mem_takeWhile_imp hx
    · exact hs

lemma innerMatch_mk {d s r : List Char} (hd : d ≠ [])
    (hdig : ∀ x ∈ d, x.isDigit = true) (hs : ∀ x ∈ s, pyIsSpace x = true) :
    innerMatch (d ++ '%' :: (s ++ '.' :: r)) = some (d, r) := by
  have htake : (d ++ '%' :: (s ++ '.' :: r)).takeWhile Char.isDigit = d := by
    rw [takeWhile_append_all _ hdig,
      takeWhile_cons_false Char.isDigit '%' _ (by decide)]
    simp
  have hdropd : (d ++ '%' :: (s ++ '.' :: r)).dropWhile Char.isDigit =
      '%' :: (s ++ '.' :: r) := by
    rw [dropWhile_append_all _ hdig,
      dropWhile_cons_false Char.isDigit '%' _ (by decide)]
  have hdrops : (s ++ '.' :: r).dropWhile pyIsSpace = '.' :: r := by
    rw [dropWhile_append_all _ hs,
      dropWhile_cons_false pyIsSpace '.' _ (by decide)]
  have hne : d.isEmpty = false := by
    cases d
    · exact absurd rfl hd
    · rfl
  unfold innerMatch
  rw [htake, hdropd]
  simp only [hne, Bool.false_eq_true, if_false]
  rw [pctMatch_cons, if_pos rfl, hdrops, dotMatch_cons, if_pos rfl]

lemma tryMatch3_some {l d r : List Char} (h : tryMatch3 l = some (d, r)) :
    ∃ w s, l = w ++ (d ++ '%' :: (s ++ '.' :: r)) ∧ w ≠ [] ∧
      (∀ x ∈ w, pyIsSpace x = true) ∧ d ≠ [] ∧
      (∀ x ∈ d, x.isDigit = true) ∧ (∀ x ∈ s, pyIsSpace x = true) := by
  unfold tryMatch3 at h
  split at h
  · exact absurd h (by simp)
  · rename_i hne
    rcases innerMatch_some h with ⟨s, hs1, hs2, hs3, hs4⟩
    refine ⟨l.takeWhile pyIsSpace, s, ?_, ?_, ?_, hs2, hs3, hs4⟩
    · conv_lhs => rw [← List.takeWhile_append_dropWhile pyIsSpace l]
      rw [hs1]
    · intro he
      rw [he] at hne
      exact hne rfl
    · intro x hx
      exact List.mem_takeWhile_imp hx

lemma tryMatch3_mk {w d s r : List Char} (hw : w ≠ [])
    (hws : ∀ x ∈ w, pyIsSpace x = true) (hd : d ≠ [])
    (hdig : ∀ x ∈ d, x.isDigit = true) (hs : ∀ x ∈ s, pyIsSpace x = true) :
    tryMatch3 (w ++ (d ++ '%' :: (s ++ '.' :: r))) = some (d, r) := by
  have hd0 : ∃ d0 dr, d = d0 :: dr := by
    cases d
    · exact absurd rfl hd
    · exact ⟨_, _, rfl⟩
  rcases hd0 with ⟨d0, dr, rfl⟩
  have hd0dig : d0.isDigit = true := hdig d0 (by simp)
  have hd0ws : pyIsSpace d0 = false := digit_not_ws hd0dig
  have htake : (w ++ ((d0 :: dr) ++ '%' :: (s ++ '.' :: r))).takeWhile pyIsSpace
      = w := by
    rw [takeWhile_append_all _ hws, List.cons_append,
      takeWhile_cons_false pyIsSpace d0 _ hd0ws]
    simp
  have hdropw : (w ++ ((d0 :: dr) ++ '%' :: (s ++ '.' :: r))).dropWhile pyIsSpace
      = (d0 :: dr) ++ '%' :: (s ++ '.' :: r) := by
    rw [dropWhile_append_all _ hws, List.cons_append,
      dropWhile_cons_false pyIsSpace d0 _ hd0ws]
  unfold tryMatch3
  rw [htake, hdropw]
  have hwne : w.isEmpty = false := by
    cases w
    · exact absurd rfl hw
    · rfl
  simp only [hwne, Bool.false_eq_true, if_false]
  exact innerMatch_mk hd hdig hs

lemma tryMatch3_length {l d r : List Char} (h : tryMatch3 l = some (d, r)) :
    r.length < l.length := by
  rcases tryMatch3_some h with ⟨w, s, hl, hw, -, -, -, -⟩
  have : 0 < w.length := List.length_pos.mpr hw
  rw [hl]
  simp [List.length_append]
  omega

/-! ### Unfolding `pass3` -/

lemma pass3F_nil (f : Nat) : pass3F f [] = [] := by cases f <;> rfl

lemma pass3F_succ_cons (f : Nat) (c : Char) (rest : List Char) :
    pass3F (f + 1) (c :: rest) =
      match tryMatch3 (c :: rest) with
      | some (d, r2) => ' ' :: (d ++ '%' :: '.' :: pass3F f r2)
      | none => c :: pass3F f rest := rfl

lemma pass3F_succ_cons_none (f : Nat) (c : Char) (rest : List Char)
    (h : tryMatch3 (c :: rest) = none) :
    pass3F (f + 1) (c :: rest) = c :: pass3F f rest := by
  rw [pass3F_succ_cons, h]

lemma pass3F_succ_cons_some (f : Nat) (c : Char) {rest d r2 : List Char}
    (h : tryMatch3 (c :: rest) = some (d, r2)) :
    pass3F (f + 1) (c :: rest) = ' ' :: (d ++ '%' :: '.' :: pass3F f r2) := by
  rw [pass3F_succ_cons, h]

lemma pass3F_congr : ∀ (f g : Nat) (l : List Char), l.length ≤ f → l.length ≤ g →
    pass3F f l = pass3F g l := by
  intro f
  induction f with
  | zero =>
      intro g l hf _
      have hl : l = [] := by
        cases l
        · rfl
        · simp at hf
      subst hl
      rw [pass3F_nil, pass3F_nil]
  | succ f ih =>
      intro g l hf hg
      cases l with
      | nil => rw [pass3F_nil, pass3F_nil]
      | cons c rest =>
          cases g with
          | zero => simp at hg
          | succ g =>
              cases h : tryMatch3 (c :: rest) with
              | none =>
                  rw [pass3F_succ_cons_none _ _ _ h, pass3F_succ_cons_none _ _ _ h]
                  have h1 : rest.length ≤ f := by
                    simp only [List.length_cons] at hf; omega
                  have h2 : rest.length ≤ g := by
                    simp only [List.length_cons] at hg; omega
                  rw [ih g rest h1 h2]
              | some p =>
                  rcases p with ⟨d, r2⟩
                  rw [pass3F_succ_cons_some _ _ h, pass3F_succ_cons_some _ _ h]
                  have hlen := tryMatch3_length h
                  simp only [List.length_cons] at hlen hf hg
                  rw [ih g r2 (by omega) (by omega)]

lemma pass3_nil : pass3 [] = [] := rfl

lemma pass3_cons_none {c : Char} {rest : List Char}
    (h : tryMatch3 (c :: rest) = none) :
    pass3 (c :: rest) = c :: pass3 rest := by
  show pass3F (c :: rest).length (c :: rest) = _
  rw [List.length_cons, pass3F_succ_cons_none _ _ _ h]
  rfl

lemma pass3_cons_some {c : Char} {rest d r2 : List Char}
    (h : tryMatch3 (c :: rest) = some (d, r2)) :
    pass3 (c :: rest) = ' ' :: (d ++ '%' :: '.' :: pass3 r2) := by
  show pass3F (c :: rest).length (c :: rest) = _
  rw [List.length_cons, pass3F_succ_cons_some _ _ h]
  have hlen := tryMatch3_length h
  simp only [List.length_cons] at hlen
  rw [pass3F_congr rest.length r2.length r2 (by omega) le_rfl]
  rfl

lemma tryMatch3_nonws {c : Char} (l : List Char) (h : pyIsSpace c = false) :
    tryMatch3 (c :: l) = none := by
  unfold tryMatch3
  rw [takeWhile_cons_false pyIsSpace c _ h]
  rfl

lemma tryMatch3_ws {c : Char} (l : List Char) (h : pyIsSpace c = true) :
    tryMatch3 (c :: l) = innerMatch (l.dropWhile pyIsSpace) := by
  have htk : (c :: l).takeWhile pyIsSpace = c :: l.takeWhile pyIsSpace := by
    rw [List.takeWhile_cons, if_pos (by simp [h])]
  have hdp : (c :: l).dropWhile pyIsSpace = l.dropWhile pyIsSpace := by
    rw [List.dropWhile_cons, if_pos (by simp [h])]
  unfold tryMatch3
  rw [htk, hdp]
  rfl

/-! ### `pass3` preserves the shape seen by the other passes -/

lemma headAfterWs_append_ws (w X : List Char) (h : ∀ x ∈ w, pyIsSpace x = true) :
    headAfterWs (w ++ X) = headAfterWs X := by
  unfold headAfterWs
  rw [dropWhile_append_all _ h]

lemma pass3_headAfterWs (l : List Char) : headAfterWs (pass3 l) = headAfterWs l := by
  induction l with
  | nil => rfl
  | cons c rest ih =>
      cases h : tryMatch3 (c :: rest) with
      | none =>
          rw [pass3_cons_none h]
          cases hw : pyIsSpace c
          · rw [headAfterWs_cons_nonws _ hw, headAfterWs_cons_nonws _ hw]
          · rw [headAfterWs_cons_ws _ hw, headAfterWs_cons_ws _ hw, ih]
      | some p =>
          rcases p with ⟨d, r2⟩
          rcases tryMatch3_some h with ⟨w, s, hl, hwne, hws, hd, hdig, hs⟩
          rcases d with _ | ⟨d0, dr⟩
          · exact absurd rfl hd
          have hd0 : pyIsSpace d0 = false := digit_not_ws (hdig d0 (by simp))
          rw [pass3_cons_some h, hl]
          rw [headAfterWs_cons_ws _ (by decide), List.cons_append,
            headAfterWs_cons_nonws _ hd0]
          rw [headAfterWs_append_ws _ _ hws, List.cons_append,
            headAfterWs_cons_nonws _ hd0]

lemma pass3_punctAfterWs (l : List Char) :
    punctAfterWs (pass3 l) = punctAfterWs l := by
  rw [punctAfterWs_eq_head, punctAfterWs_eq_head, pass3_headAfterWs]

lemma pass3_head_saeng (l : List Char) :
    ((pass3 l).head? = some '생') ↔ (l.head? = some '생') := by
  cases l with
  | nil => exact Iff.rfl
  | cons c rest =>
      cases h : tryMatch3 (c :: rest) with
      | none =>
          rw [pass3_cons_none h]
          exact Iff.rfl
      | some p =>
          rcases p with ⟨d, r2⟩
          rcases tryMatch3_some h with ⟨w, s, hl, hwne, hws, hd, hdig, hs⟩
          rw [pass3_cons_some h]
          have hcw : pyIsSpace c = true := by
            rcases w with _ | ⟨w0, w1⟩
            · exact absurd rfl hwne
            · rw [List.cons_append] at hl
              have : c = w0 := (List.cons.injEq _ _ _ _ ▸ hl).1
              rw [this]
              exact hws w0 (by simp)
          constructor
          · intro hcontra
            simp at hcontra
          · intro hcontra
            have : c = '생' := by simpa using hcontra
            exact absurd this (ws_ne_saeng hcw)

lemma pass3_yearsAfterWs (l : List Char) :
    yearsAfterWs (pass3 l) = yearsAfterWs l := by
  induction l with
  | nil => rfl
  | cons c rest ih =>
      cases h : tryMatch3 (c :: rest) with
      | none =>
          rw [pass3_cons_none h]
          cases hw : pyIsSpace c
          · rw [yearsAfterWs_eq, yearsAfterWs_eq,
              dropWhile_cons_false pyIsSpace c _ hw,
              dropWhile_cons_false pyIsSpace c _ hw]
            simp only [startsYS]
            have hsg : decide ((pass3 rest).head? = some '생')
                = decide (rest.head? = some '생') := by
              simp only [decide_eq_decide]
              exact pass3_head_saeng rest
            rw [hsg]
          · rw [yearsAfterWs_cons_ws _ hw, yearsAfterWs_cons_ws _ hw, ih]
      | some p =>
          rcases p with ⟨d, r2⟩
          rcases tryMatch3_some h with ⟨w, s, hl, hwne, hws, hd, hdig, hs⟩
          rcases d with _ | ⟨d0, dr⟩
          · exact absurd rfl hd
          have hd0dig : d0.isDigit = true := hdig d0 (by simp)
          have hd0ws : pyIsSpace d0 = false := digit_not_ws hd0dig
          have hd0ny : (decide (d0 = '년') : Bool) = false :=
            decide_eq_false (digit_ne_nyeon hd0dig)
          rw [pass3_cons_some h, hl]
          rw [yearsAfterWs_cons_ws _ (by decide), yearsAfterWs_eq, yearsAfterWs_eq]
          rw [List.cons_append, dropWhile_cons_false pyIsSpace d0 _ hd0ws]
          rw [dropWhile_append_all _ hws, List.cons_append,
            dropWhile_cons_false pyIsSpace d0 _ hd0ws]
          simp only [startsYS, hd0ny, Bool.false_and]

/-! ### The scanner cannot create new matches (keep case) -/

lemma checkPD_nil : checkPD [] = false := rfl

lemma checkPD_cons (a : Char) (Z2 : List Char) :
    checkPD (a :: Z2) = (a = '%' && decide (headAfterWs Z2 = some '.')) := rfl

lemma dotMatch_none_iff (d Z3 : List Char) :
    dotMatch d Z3 = none ↔ (decide (Z3.head? = some '.') : Bool) = false := by
  cases Z3 with
  | nil => simp [dotMatch_nil]
  | cons b l3 =>
      rw [dotMatch_cons]
      by_cases hb : b = '.'
      · subst hb; simp
      · simp [hb]

lemma pctMatch_none_iff (d Z : List Char) :
    pctMatch d Z = none ↔ checkPD Z = false := by
  cases Z with
  | nil => simp [pctMatch_nil, checkPD_nil]
  | cons a Z2 =>
      rw [pctMatch_cons, checkPD_cons]
      by_cases ha : a = '%'
      · subst ha
        rw [if_pos rfl]
        rw [dotMatch_none_iff]
        unfold headAfterWs
        simp
      · rw [if_neg ha]
        simp [ha]

lemma innerMatch_none_iff (Y : List Char) :
    innerMatch Y = none ↔
      ((Y.takeWhile Char.isDigit).isEmpty = true ∨
        checkPD (Y.dropWhile Char.isDigit) = false) := by
  unfold innerMatch
  split
  · rename_i hemp
    simp [hemp]
  · rename_i hemp
    rw [pctMatch_none_iff]
    simp [hemp]

lemma ws_ne_pct {c : Char} (h : pyIsSpace c = true) : c ≠ '%' := by
  rcases pyIsSpace_cases h with h | h | h | h | h | h <;> subst h <;> decide

lemma pass3_checkPD (t : List Char)
    (h : checkPD (t.dropWhile Char.isDigit) = false) :
    checkPD ((pass3 t).dropWhile Char.isDigit) = false := by
  induction t with
  | nil => simpa using h
  | cons x t2 ih =>
      cases hx : x.isDigit
      · -- x is not a digit: dropWhile stops at x
        rw [dropWhile_cons_false Char.isDigit x _ hx] at h
        cases hw : pyIsSpace x
        · -- keep, non-whitespace head
          rw [pass3_cons_none (tryMatch3_nonws _ hw),
            dropWhile_cons_false Char.isDigit x _ hx]
          by_cases hpc : x = '%'
          · subst hpc
            rw [checkPD_cons] at h ⊢
            rw [pass3_headAfterWs]
            simpa using h
          · rw [checkPD_cons]
            simp [hpc]
        · -- whitespace head: keep or match, either way no '%' at the front
          cases h3 : tryMatch3 (x :: t2) with
          | none =>
              rw [pass3_cons_none h3, dropWhile_cons_false Char.isDigit x _ hx,
                checkPD_cons]
              simp [ws_ne_pct hw]
          | some p =>
              rcases p with ⟨d, r2⟩
              rw [pass3_cons_some h3,
                dropWhile_cons_false Char.isDigit ' ' _ (by decide), checkPD_cons]
              simp
      · -- digit head: both dropWhiles skip it
        have hxws : pyIsSpace x = false := digit_not_ws hx
        rw [List.dropWhile_cons, if_pos (by simp [hx])] at h
        rw [pass3_cons_none (tryMatch3_nonws _ hxws), List.dropWhile_cons,
          if_pos (by simp [hx])]
        exact ih h

lemma pass3_innerMatch_none (l : List Char)
    (h : innerMatch (l.dropWhile pyIsSpace) = none) :
    innerMatch ((pass3 l).dropWhile pyIsSpace) = none := by
  induction l with
  | nil => simpa using h
  | cons x t ih =>
      cases hw : pyIsSpace x
      · -- non-whitespace head kept
        rw [dropWhile_cons_false pyIsSpace x _ hw] at h
        rw [pass3_cons_none (tryMatch3_nonws _ hw),
          dropWhile_cons_false pyIsSpace x _ hw]
        cases hx : x.isDigit
        · -- no digits at all, fails at the digit group
          unfold innerMatch
          rw [takeWhile_cons_false Char.isDigit x _ hx]
          rfl
        · rw [innerMatch_none_iff] at h ⊢
          rcases h with h | h
          · rw [List.takeWhile_cons, if_pos (by simp [hx])] at h
            simp at h
          · rw [List.dropWhile_cons, if_pos (by simp [hx])] at h
            refine Or.inr ?_
            rw [List.dropWhile_cons, if_pos (by simp [hx])]
            exact pass3_checkPD t h
      · -- whitespace head
        rw [List.dropWhile_cons, if_pos (by simp [hw])] at h
        have h3 : tryMatch3 (x :: t) = none := by
          rw [tryMatch3_ws _ hw]
          exact h
        rw [pass3_cons_none h3, List.dropWhile_cons, if_pos (by simp [hw])]
        exact ih h

lemma tryMatch3_none_pass3 {c : Char} {l : List Char}
    (h : tryMatch3 (c :: l) = none) :
    tryMatch3 (c :: pass3 l) = none := by
  cases hw : pyIsSpace c
  · exact tryMatch3_nonws _ hw
  · rw [tryMatch3_ws _ hw] at h ⊢
    exact pass3_innerMatch_none l h

/-! ### Idempotence of `pass3` -/

lemma pass3_idem (l : List Char) : pass3 (pass3 l) = pass3 l := by
  have main : ∀ n (l : List Char), l.length ≤ n → pass3 (pass3 l) = pass3 l := by
    intro n
    induction n with
    | zero =>
        intro l hl
        have : l = [] := by
          cases l
          · rfl
          · simp at hl
        subst this
        rfl
    | succ n ih =>
        intro l hl
        cases l with
        | nil => rfl
        | cons c rest =>
            cases h : tryMatch3 (c :: rest) with
            | none =>
                rw [pass3_cons_none h, pass3_cons_none (tryMatch3_none_pass3 h)]
                simp only [List.length_cons] at hl
                rw [ih rest (by omega)]
            | some p =>
                rcases p with ⟨d, r2⟩
                rcases tryMatch3_some h with ⟨w, s, hl2, hwne, hws, hd, hdig, hs⟩
                rw [pass3_cons_some h]
                have hm : tryMatch3 (' ' :: (d ++ '%' :: '.' :: pass3 r2))
                    = some (d, pass3 r2) := by
                  have := tryMatch3_mk (w := [' ']) (d := d) (s := [])
                    (r := pass3 r2) (by simp)
                    (by intro x hx; simp at hx; subst hx; decide)
                    hd hdig (by simp)
                  simpa using this
                rw [pass3_cons_some hm]
                have hlen := tryMatch3_length h
                simp only [List.length_cons] at hlen hl
                rw [ih r2 (by omega)]
  exact main l.length l le_rfl

/-! ### `pass3` preserves the fixed-point property of `pass1`/`pass2` -/

lemma pass3_noBadG (cond : List Char → Bool)
    (hstable : ∀ r, cond (pass3 r) = cond r)
    (hdfalse : ∀ (d X : List Char), d ≠ [] → (∀ x ∈ d, x.isDigit = true) →
      cond (d ++ X) = false) :
    ∀ n (l : List Char), l.length ≤ n → noBadG cond l = true →
      noBadG cond (pass3 l) = true := by
  intro n
  induction n with
  | zero =>
      intro l hl hnb
      have : l = [] := by
        cases l
        · rfl
        · simp at hl
      subst this
      exact hnb
  | succ n ih =>
      intro l hl hnb
      cases l with
      | nil => exact hnb
      | cons c rest =>
          simp only [List.length_cons] at hl
          cases h : tryMatch3 (c :: rest) with
          | none =>
              rw [noBadG_cons] at hnb
              rcases Bool.and_eq_true _ _ |>.mp hnb with ⟨hhead, htail⟩
              rw [pass3_cons_none h, noBadG_cons, ih rest (by omega) htail,
                hstable rest]
              rw [Bool.and_true]
              exact hhead
          | some p =>
              rcases p with ⟨d, r2⟩
              rcases tryMatch3_some h with ⟨w, s, hl2, hwne, hws, hd, hdig, hs⟩
              rw [pass3_cons_some h, noBadG_cons]
              have hcond1 : cond (d ++ '%' :: '.' :: pass3 r2) = false :=
                hdfalse d _ hd hdig
              have hnb2 : noBadG cond r2 = true := by
                have hnb3 : noBadG cond ((w ++ (d ++ '%' :: s)) ++ ('.' :: r2))
                    = true := by
                  have hsplit : c :: rest
                      = (w ++ (d ++ '%' :: s)) ++ ('.' :: r2) := by
                    rw [hl2]
                    simp [List.append_assoc]
                  rw [← hsplit]
                  exact hnb
                have := noBadG_append_right cond _ _ hnb3
                rw [noBadG_cons] at this
                exact (Bool.and_eq_true _ _ |>.mp this).2
              have hlen := tryMatch3_length h
              simp only [List.length_cons] at hlen
              have hrest : noBadG cond (d ++ '%' :: '.' :: pass3 r2) = true := by
                have hshape : d ++ '%' :: '.' :: pass3 r2
                    = (d ++ ['%', '.']) ++ pass3 r2 := by
                  simp
                rw [hshape, noBadG_append_nonws]
                · exact ih r2 (by omega) hnb2
                · intro x hx
                  simp at hx
                  rcases hx with hx | hx | hx
                  · exact digit_not_ws (hdig x hx)
                  · subst hx; decide
                  · subst hx; decide
              rw [hcond1, hrest]
              simp

/-! ### Idempotence of the full repair pass (claim C5) -/

lemma delWs_punctAfterWs (cond : List Char → Bool) (l : List Char) :
    punctAfterWs (delWs cond l) = punctAfterWs l := by
  rw [punctAfterWs_eq_head, punctAfterWs_eq_head, delWs_headAfterWs]

lemma delWs_noBadG_other (cond1 cond2 : List Char → Bool)
    (hst : ∀ r, cond1 (delWs cond2 r) = cond1 r) :
    ∀ l, noBadG cond1 l = true → noBadG cond1 (delWs cond2 l) = true := by
  intro l
  induction l with
  | nil => intro h; exact h
  | cons c rest ih =>
      intro h
      rw [noBadG_cons] at h
      rcases Bool.and_eq_true _ _ |>.mp h with ⟨hhead, htail⟩
      cases hb : (pyIsSpace c && cond2 rest)
      · rw [delWs_cons_keep cond2 hb, noBadG_cons, ih htail, hst rest,
          Bool.and_true]
        exact hhead
      · rw [delWs_cons_del cond2 hb]
        exact ih htail

lemma fixParagraphL_idem (l : List Char) :
    fixParagraphL (fixParagraphL l) = fixParagraphL l := by
  have hnb1 : noBadG punctAfterWs (fixParagraphL l) = true := by
    unfold fixParagraphL
    refine pass3_noBadG punctAfterWs pass3_punctAfterWs ?_ _ _ le_rfl ?_
    · intro d X hd hdig
      rcases d with _ | ⟨d0, dr⟩
      · exact absurd rfl hd
      rw [punctAfterWs_eq_head, List.cons_append,
        headAfterWs_cons_nonws _ (digit_not_ws (hdig d0 (by simp)))]
      exact digit_not_punct (hdig d0 (by simp))
    · exact delWs_noBadG_other punctAfterWs yearsAfterWs
        (delWs_punctAfterWs yearsAfterWs) (pass1 l) (pass1_noBad l)
  have hnb2 : noBadG yearsAfterWs (fixParagraphL l) = true := by
    unfold fixParagraphL
    refine pass3_noBadG yearsAfterWs pass3_yearsAfterWs ?_ _ _ le_rfl ?_
    · intro d X hd hdig
      rcases d with _ | ⟨d0, dr⟩
      · exact absurd rfl hd
      have hd0dig : d0.isDigit = true := hdig d0 (by simp)
      rw [yearsAfterWs_eq, List.cons_append,
        dropWhile_cons_false pyIsSpace d0 _ (digit_not_ws hd0dig)]
      simp only [startsYS, decide_eq_false (digit_ne_nyeon hd0dig), Bool.false_and]
    · exact pass2_noBad (pass1 l)
  have h1 : pass1 (fixParagraphL l) = fixParagraphL l := noBadG_fix _ _ hnb1
  have h2 : pass2 (fixParagraphL l) = fixParagraphL l := noBadG_fix _ _ hnb2
  show pass3 (pass2 (pass1 (fixParagraphL l))) = fixParagraphL l
  rw [h1, h2]
  show pass3 (pass3 (pass2 (pass1 l))) = fixParagraphL l
  rw [pass3_idem]
  rfl

example : fixParagraph "93 %." = "93%." := by decide
example : fixParagraph "운세지수 93 %." = "운세지수 93%." := by decide
example : fixParagraph "1973 년생" = "1973년생" := by decide
example : fixParagraph "오늘의 운세 입니다 ." = "오늘의 운세 입니다." := by decide

/-! ### Stable maximum (`max(candidates, key=...)`) -/

lemma pyMaxGo_cons {α : Type} (f : α → Nat) (a y : α) (ys : List α) :
    pyMaxGo f a (y :: ys) = pyMaxGo f (if f a < f y then y else a) ys := rfl

lemma pyMaxGo_spec {α : Type} (f : α → Nat) :
    ∀ (l : List α) (a : α),
      (∀ x ∈ a :: l, f x ≤ f (pyMaxGo f a l)) ∧
      ∃ pre post, a :: l = pre ++ pyMaxGo f a l :: post ∧
        ∀ x ∈ pre, f x < f (pyMaxGo f a l) := by
  intro l
  induction l with
  | nil =>
      intro a
      refine ⟨?_, [], [], rfl, by simp⟩
      intro x hx
      simp at hx
      subst hx
      exact le_rfl
  | cons y ys ih =>
      intro a
      rw [pyMaxGo_cons]
      by_cases hc : f a < f y
      · rw [if_pos hc]
        rcases ih y with ⟨hbound, pre2, post2, heq2, hlt2⟩
        have hyr : f y ≤ f (pyMaxGo f y ys) := hbound y (List.mem_cons_self _ _)
        refine ⟨?_, a :: pre2, post2, ?_, ?_⟩
        · intro x hx
          rcases List.mem_cons.mp hx with hx | hx
          · subst hx; omega
          · exact hbound x hx
        · rw [List.cons_append, ← heq2]
        · intro x hx
          rcases List.mem_cons.mp hx with hx | hx
          · subst hx; omega
          · exact hlt2 x hx
      · rw [if_neg hc]
        rcases ih a with ⟨hbound, pre2, post2, heq2, hlt2⟩
        have har : f a ≤ f (pyMaxGo f a ys) := hbound a (List.mem_cons_self _ _)
        have hyr : f y ≤ f (pyMaxGo f a ys) := by omega
        refine ⟨?_, ?_⟩
        · intro x hx
          rcases List.mem_cons.mp hx with hx | hx
          · subst hx; exact har
          rcases List.mem_cons.mp hx with hx | hx
          · subst hx; exact hyr
          · exact hbound x (List.mem_cons_of_mem _ hx)
        · rcases pre2 with _ | ⟨p0, pre3⟩
          · -- the accumulator `a` itself is the running maximum
            rw [List.nil_append] at heq2
            obtain ⟨ha, -⟩ := List.cons.inj heq2
            refine ⟨[], y :: ys, ?_, by simp⟩
            rw [List.nil_append, ← ha]
          · rw [List.cons_append] at heq2
            obtain ⟨hp0, hys⟩ := List.cons.inj heq2
            have hfa : f a < f (pyMaxGo f a ys) := by
              have hlp := hlt2 p0 (List.mem_cons_self _ _)
              rwa [← hp0] at hlp
            refine ⟨a :: y :: pre3, post2, ?_, ?_⟩
            · rw [List.cons_append, List.cons_append, ← hys]
            · intro x hx
              rcases List.mem_cons.mp hx with hx | hx
              · subst hx; exact hfa
              rcases List.mem_cons.mp hx with hx | hx
              · subst hx; omega
              · exact hlt2 x (List.mem_cons_of_mem _ hx)

lemma selectBody_spec {l : List Node} {b : Node} (h : selectBody l = some b) :
    (∀ x ∈ l, textLen x ≤ textLen b) ∧
    ∃ pre post, l = pre ++ b :: post ∧ ∀ x ∈ pre, textLen x < textLen b := by
  cases l with
  | nil => exact absurd h (by simp [selectBody])
  | cons a xs =>
      have hb : b = pyMaxGo textLen a xs := by
        have h2 := h
        unfold selectBody at h2
        exact (Option.some.inj h2).symm
      rcases pyMaxGo_spec textLen xs a with ⟨h1, pre, post, h2, h3⟩
      subst hb
      exact ⟨h1, pre, post, h2, h3⟩

/-! ### Boilerplate filter -/

lemma filterBoiler_cons (p : List Char) (ps : List (List Char)) :
    filterBoiler (p :: ps) =
      if dropBoiler p then filterBoiler ps else p :: filterBoiler ps := rfl

lemma filterBoiler_sublist : ∀ l : List (List Char), (filterBoiler l).Sublist l := by
  intro l
  induction l with
  | nil => exact List.Sublist.refl []
  | cons p ps ih =>
      rw [filterBoiler_cons]
      by_cases hd : dropBoiler p = true
      · rw [if_pos hd]
        exact ih.trans (List.sublist_cons_self p ps)
      · rw [if_neg hd]
        exact ih.cons₂ p

lemma filterBoiler_mem_false : ∀ (l : List (List Char)) (p : List Char),
    p ∈ filterBoiler l → dropBoiler p = false := by
  intro l
  induction l with
  | nil => intro p hp; simp [filterBoiler] at hp
  | cons q ps ih =>
      intro p hp
      rw [filterBoiler_cons] at hp
      by_cases hd : dropBoiler q = true
      · rw [if_pos hd] at hp
        exact ih p hp
      · rw [if_neg hd] at hp
        rcases List.mem_cons.mp hp with hp | hp
        · subst hp; exact Bool.eq_false_iff.mpr hd
        · exact ih p hp

lemma filterBoiler_mem_of : ∀ (l : List (List Char)) (p : List Char),
    p ∈ l → dropBoiler p = false → p ∈ filterBoiler l := by
  intro l
  induction l with
  | nil => intro p hp; simp at hp
  | cons q ps ih =>
      intro p hp hdrop
      rw [filterBoiler_cons]
      by_cases hd : dropBoiler q = true
      · rw [if_pos hd]
        rcases List.mem_cons.mp hp with hp | hp
        · subst hp; rw [hdrop] at hd; exact absurd hd (by decide)
        · exact ih p hp hdrop
      · rw [if_neg hd]
        rcases List.mem_cons.mp hp with hp | hp
        · subst hp; exact List.mem_cons_self _ _
        · exact List.mem_cons_of_mem _ (ih p hp hdrop)

lemma dropBoiler_iff (p : List Char) :
    dropBoiler p = true ↔ (p.length < 120 ∧ hasMarker p = true) := by
  unfold dropBoiler
  rw [Bool.and_eq_true, decide_eq_true_eq]

/-! ### Image extraction -/

lemma dedupFirst_cons (seen : List String) (u : String) (rest : List String) :
    dedupFirst seen (u :: rest) =
      if seen.contains u then dedupFirst seen rest
      else u :: dedupFirst (u :: seen) rest := rfl

lemma dedupFirst_sublist : ∀ (l seen : List String), (dedupFirst seen l).Sublist l := by
  intro l
  induction l with
  | nil => intro seen; exact List.Sublist.refl []
  | cons u rest ih =>
      intro seen
      rw [dedupFirst_cons]
      by_cases hc : seen.contains u = true
      · rw [if_pos hc]
        exact (ih seen).trans (List.sublist_cons_self u rest)
      · rw [if_neg hc]
        exact (ih (u :: seen)).cons₂ u

lemma dedupFirst_not_mem_seen : ∀ (l seen : List String) (u : String),
    u ∈ dedupFirst seen l → u ∉ seen := by
  intro l
  induction l with
  | nil => intro seen u hu; simp [dedupFirst] at hu
  | cons v rest ih =>
      intro seen u hu
      rw [dedupFirst_cons] at hu
      by_cases hc : seen.contains v = true
      · rw [if_pos hc] at hu
        exact ih seen u hu
      · rw [if_neg hc] at hu
        rcases List.mem_cons.mp hu with hu | hu
        · subst hu
          intro hmem
          exact hc (by simpa using hmem)
        · intro hmem
          exact ih (v :: seen) u hu (List.mem_cons_of_mem _ hmem)

lemma dedupFirst_nodup : ∀ (l seen : List String), (dedupFirst seen l).Nodup := by
  intro l
  induction l with
  | nil => intro seen; exact List.nodup_nil
  | cons v rest ih =>
      intro seen
      rw [dedupFirst_cons]
      by_cases hc : seen.contains v = true
      · rw [if_pos hc]
        exact ih seen
      · rw [if_neg hc]
        refine List.nodup_cons.mpr ⟨?_, ih (v :: seen)⟩
        intro hmem
        exact dedupFirst_not_mem_seen rest (v :: seen) v hmem (List.mem_cons_self _ _)

lemma imgStep_none (urljoin : String → String → String) (base : String)
    (tail : List String) : imgStep urljoin base none tail = tail := rfl

lemma imgStep_some (urljoin : String → String → String) (base : String)
    (src : String) (tail : List String) :
    imgStep urljoin base (some src) tail =
      if "data:".data.isPrefixOf src.data then tail
      else
        if extOkSearch (urljoin base src).data && !badToken (urljoin base src).data then
          urljoin base src :: tail
        else tail := rfl

lemma imgCandidates_cons (urljoin : String → String → String) (base : String)
    (img : ImgTag) (rest : List ImgTag) :
    imgCandidates urljoin base (img :: rest) =
      imgStep urljoin base (getSrc img) (imgCandidates urljoin base rest) := rfl

lemma imgCandidates_mem (urljoin : String → String → String) (base : String) :
    ∀ (imgs : List ImgTag) (u : String), u ∈ imgCandidates urljoin base imgs →
      extOkSearch u.data = true ∧ badToken u.data = false ∧
      ∃ src, u = urljoin base src ∧ "data:".data.isPrefixOf src.data = false := by
  intro imgs
  induction imgs with
  | nil => intro u hu; simp [imgCandidates] at hu
  | cons img rest ih =>
      intro u hu
      rw [imgCandidates_cons] at hu
      cases hsrc : getSrc img with
      | none =>
          rw [hsrc, imgStep_none] at hu
          exact ih u hu
      | some src =>
          rw [hsrc, imgStep_some] at hu
          by_cases hdata : "data:".data.isPrefixOf src.data = true
          · rw [if_pos hdata] at hu
            exact ih u hu
          · rw [if_neg hdata] at hu
            by_cases hok : (extOkSearch (urljoin base src).data &&
                !badToken (urljoin base src).data) = true
            · rw [if_pos hok] at hu
              rcases List.mem_cons.mp hu with hu | hu
              · subst hu
                rcases Bool.and_eq_true _ _ |>.mp hok with ⟨h1, h2⟩
                refine ⟨h1, by simpa using h2, src, rfl, Bool.eq_false_iff.mpr hdata⟩
              · exact ih u hu
            · rw [if_neg hok] at hu
              exact ih u hu

/-! ### Unfolding `parse_post` -/

lemma parse_post_none {doc : NodeList} (hb : selectBody (candidatePool doc) = none) :
    parse_post doc = normalizeFullDoc doc := by
  unfold parse_post
  rw [hb]

lemma parse_post_some {doc : NodeList} {body : Node}
    (hb : selectBody (candidatePool doc) = some body) :
    parse_post doc =
      if (reconstructText (pruneNoise body)).isEmpty then
        ⟨pyStripL (getTextNL (pruneNoise body))⟩
      else ⟨reconstructText (pruneNoise body)⟩ := by
  unfold parse_post
  rw [hb]

/-! ### Properties of the line cleanup (claim C7) -/

lemma isEmpty_false_of_ne {α : Type} {l : List α} (h : l ≠ []) : l.isEmpty = false := by
  cases l
  · exact absurd rfl h
  · rfl

lemma squeezeGo_cons (b : Bool) (c : Char) (rest : List Char) :
    squeezeGo b (c :: rest) =
      if isSpTab c then
        match rest with
        | d :: _ =>
            if isSpTab d then squeezeGo true rest
            else (if b then ' ' else c) :: squeezeGo false rest
        | [] => [if b then ' ' else c]
      else c :: squeezeGo false rest := rfl

lemma squeezeGo_cons_nonsp (b : Bool) (c : Char) (rest : List Char)
    (h : isSpTab c = false) :
    squeezeGo b (c :: rest) = c :: squeezeGo false rest := by
  rw [squeezeGo_cons, if_neg (by simp [h])]

lemma squeezeGo_cons_sp_nil (b : Bool) (c : Char) (h : isSpTab c = true) :
    squeezeGo b [c] = [if b then ' ' else c] := by
  rw [squeezeGo_cons, if_pos h]

lemma squeezeGo_cons_sp_sp (b : Bool) (c d : Char) (dr : List Char)
    (hc : isSpTab c = true) (hd : isSpTab d = true) :
    squeezeGo b (c :: d :: dr) = squeezeGo true (d :: dr) := by
  rw [squeezeGo_cons, if_pos hc]
  show (if isSpTab d then squeezeGo true (d :: dr)
        else (if b then ' ' else c) :: squeezeGo false (d :: dr)) = _
  rw [if_pos hd]

lemma squeezeGo_cons_sp_nonsp (b : Bool) (c d : Char) (dr : List Char)
    (hc : isSpTab c = true) (hd : isSpTab d = false) :
    squeezeGo b (c :: d :: dr) = (if b then ' ' else c) :: squeezeGo false (d :: dr) := by
  rw [squeezeGo_cons, if_pos hc]
  show (if isSpTab d then squeezeGo true (d :: dr)
        else (if b then ' ' else c) :: squeezeGo false (d :: dr)) = _
  rw [if_neg (by simp [hd])]

lemma squeezeGo_ne_nil : ∀ (l : List Char) (b : Bool), l ≠ [] → squeezeGo b l ≠ [] := by
  intro l
  induction l with
  | nil => intro b h; exact absurd rfl h
  | cons c rest ih =>
      intro b _
      cases hc : isSpTab c
      · rw [squeezeGo_cons_nonsp _ _ _ hc]
        simp
      · cases rest with
        | nil =>
            rw [squeezeGo_cons_sp_nil _ _ hc]
            simp
        | cons d dr =>
            cases hd : isSpTab d
            · rw [squeezeGo_cons_sp_nonsp _ _ _ _ hc hd]
              simp
            · rw [squeezeGo_cons_sp_sp _ _ _ _ hc hd]
              exact ih true (by simp)

lemma noDouble_cons2 (a b : Char) (rest : List Char) :
    noDoubleSpTab (a :: b :: rest) =
      (!(isSpTab a && isSpTab b) && noDoubleSpTab (b :: rest)) := rfl

lemma noDouble_cons_of_nonsp {out : List Char} (a : Char)
    (hout2 : ∀ h hd, out = h :: hd → isSpTab h = false)
    (hnd : noDoubleSpTab out = true) : noDoubleSpTab (a :: out) = true := by
  cases out with
  | nil => rfl
  | cons h hd =>
      rw [noDouble_cons2, hout2 h hd rfl]
      simp [hnd]

lemma squeezeGo_noDouble : ∀ (l : List Char) (b : Bool),
    noDoubleSpTab (squeezeGo b l) = true := by
  intro l
  induction l with
  | nil => intro b; rfl
  | cons c rest ih =>
      intro b
      cases hc : isSpTab c
      · rw [squeezeGo_cons_nonsp _ _ _ hc]
        -- head c is not a space/tab, so no pair it belongs to can be double
        cases hout : squeezeGo false rest with
        | nil => rfl
        | cons h hd =>
            rw [noDouble_cons2, hc]
            have := ih false
            rw [hout] at this
            simp [this]
      · cases rest with
        | nil =>
            rw [squeezeGo_cons_sp_nil _ _ hc]
            rfl
        | cons d dr =>
            cases hd : isSpTab d
            · rw [squeezeGo_cons_sp_nonsp _ _ _ _ hc hd,
                squeezeGo_cons_nonsp _ _ _ hd, noDouble_cons2, hd]
              have : noDoubleSpTab (d :: squeezeGo false dr) = true := by
                rw [← squeezeGo_cons_nonsp false d dr hd]
                exact ih false
              simp [this]
            · rw [squeezeGo_cons_sp_sp _ _ _ _ hc hd]
              exact ih true

lemma collapseGo_cons (pb : Bool) (ln : List Char) (rest : List (List Char)) :
    collapseGo pb (ln :: rest) =
      if ln.isEmpty then
        if pb then collapseGo true rest else [] :: collapseGo true rest
      else squeeze ln :: collapseGo false rest := rfl

lemma collapseGo_true_head : ∀ (ls : List (List Char)) (ln : List Char)
    (out : List (List Char)), collapseGo true ls = ln :: out → ln.isEmpty = false := by
  intro ls
  induction ls with
  | nil => intro ln out h; exact absurd h (by simp [collapseGo])
  | cons x xs ih =>
      intro ln out h
      rw [collapseGo_cons] at h
      by_cases hx : x.isEmpty = true
      · rw [if_pos hx, if_pos rfl] at h
        exact ih ln out h
      · rw [if_neg hx] at h
        obtain ⟨h1, -⟩ := List.cons.inj h
        rw [← h1]
        exact isEmpty_false_of_ne
          (squeezeGo_ne_nil x false (fun hxe => hx (by rw [hxe]; rfl)))

lemma noAdjBlanks_cons2 (a b : List Char) (rest : List (List Char)) :
    noAdjBlanks (a :: b :: rest) =
      (!(a.isEmpty && b.isEmpty) && noAdjBlanks (b :: rest)) := rfl

lemma collapseGo_noAdj : ∀ (ls : List (List Char)) (pb : Bool),
    noAdjBlanks (collapseGo pb ls) = true := by
  intro ls
  induction ls with
  | nil => intro pb; rfl
  | cons x xs ih =>
      intro pb
      rw [collapseGo_cons]
      by_cases hx : x.isEmpty = true
      · rw [if_pos hx]
        cases pb with
        | true =>
            rw [if_pos rfl]
            exact ih true
        | false =>
            rw [if_neg (by decide)]
            cases hout : collapseGo true xs with
            | nil => rfl
            | cons ln rest =>
                rw [noAdjBlanks_cons2, collapseGo_true_head xs ln rest hout]
                have h2 := ih true
                rw [hout] at h2
                simp [h2]
      · rw [if_neg hx]
        have hsx : (squeeze x).isEmpty = false :=
          isEmpty_false_of_ne
            (squeezeGo_ne_nil x false (fun hxe => hx (by rw [hxe]; rfl)))
        cases hout : collapseGo false xs with
        | nil => rfl
        | cons ln rest =>
            rw [noAdjBlanks_cons2, hsx]
            have h2 := ih false
            rw [hout] at h2
            simp [h2]

lemma collapseGo_mem : ∀ (ls : List (List Char)) (pb : Bool) (ln : List Char),
    ln ∈ collapseGo pb ls → ln = [] ∨ ∃ x, ln = squeeze x := by
  intro ls
  induction ls with
  | nil => intro pb ln h; simp [collapseGo] at h
  | cons x xs ih =>
      intro pb ln h
      rw [collapseGo_cons] at h
      by_cases hx : x.isEmpty = true
      · rw [if_pos hx] at h
        cases pb with
        | true =>
            rw [if_pos rfl] at h
            exact ih true ln h
        | false =>
            rw [if_neg (by decide)] at h
            rcases List.mem_cons.mp h with h | h
            · exact Or.inl h
            · exact ih true ln h
      · rw [if_neg hx] at h
        rcases List.mem_cons.mp h with h | h
        · exact Or.inr ⟨x, h⟩
        · exact ih false ln h

/-! ### Non-emptiness of stripped text (claim C1) -/

lemma head_dropWhile_false {p : Char → Bool} :
    ∀ (l : List Char) {c : Char} {r : List Char},
      l.dropWhile p = c :: r → p c = false := by
  intro l
  induction l with
  | nil => intro c r h; exact absurd h (by simp)
  | cons x xs ih =>
      intro c r h
      rw [List.dropWhile_cons] at h
      by_cases hx : p x = true
      · rw [if_pos (by simp [hx])] at h
        exact ih h
      · rw [if_neg (by simp [hx])] at h
        obtain ⟨h1, -⟩ := List.cons.inj h
        rw [← h1]
        exact Bool.eq_false_iff.mpr hx

lemma mem_dropWhile_of_not {p : Char → Bool} {l : List Char} {c : Char}
    (hc : c ∈ l) (hp : p c = false) : c ∈ l.dropWhile p := by
  have hsplit := List.takeWhile_append_dropWhile p l
  rw [← hsplit] at hc
  rcases List.mem_append.mp hc with h | h
  · have := List.mem_takeWhile_imp h
    rw [hp] at this
    exact absurd this (by decide)
  · exact h

lemma strip_ne_nil_of_mem {l : List Char} {c : Char} (hc : c ∈ l)
    (hnws : pyIsSpace c = false) : pyStripL l ≠ [] := by
  unfold pyStripL
  have h1 : c ∈ l.dropWhile pyIsSpace := mem_dropWhile_of_not hc hnws
  have h2 : c ∈ (l.dropWhile pyIsSpace).reverse := List.mem_reverse.mpr h1
  have h3 : c ∈ (l.dropWhile pyIsSpace).reverse.dropWhile pyIsSpace :=
    mem_dropWhile_of_not h2 hnws
  intro he
  rw [List.reverse_eq_nil_iff] at he
  rw [he] at h3
  exact absurd h3 (List.not_mem_nil c)

lemma strip_has_nonws {l : List Char} (h : pyStripL l ≠ []) :
    ∃ c ∈ pyStripL l, pyIsSpace c = false := by
  unfold pyStripL at h ⊢
  cases hB : (l.dropWhile pyIsSpace).reverse.dropWhile pyIsSpace with
  | nil => rw [hB] at h; exact absurd rfl h
  | cons b B2 =>
      refine ⟨b, ?_, head_dropWhile_false _ hB⟩
      exact List.mem_reverse.mpr (List.mem_cons_self _ _)

mutual
theorem textPieces_shape : ∀ n : Node, ∀ p ∈ textPieces n,
    ∃ s : List Char, p = pyStripL s ∧ p ≠ []
  | .text s => by
      intro p hp
      unfold textPieces at hp
      by_cases he : (pyStripL s.data).isEmpty = true
      · rw [if_pos he] at hp
        simp at hp
      · rw [if_neg he] at hp
        rcases List.mem_cons.mp hp with hp | hp
        · subst hp
          exact ⟨s.data, rfl, fun hnil => he (by rw [hnil]; rfl)⟩
        · simp at hp
  | .elem t c i cs => by
      intro p hp
      exact textPiecesL_shape cs p hp

theorem textPiecesL_shape : ∀ nl : NodeList, ∀ p ∈ textPiecesL nl,
    ∃ s : List Char, p = pyStripL s ∧ p ≠ []
  | .nil => by intro p hp; simp [textPiecesL] at hp
  | .cons n rest => by
      intro p hp
      unfold textPiecesL at hp
      rcases List.mem_append.mp hp with hp | hp
      · exact textPieces_shape n p hp
      · exact textPiecesL_shape rest p hp
end

lemma stripped_join_ne (pieces : List (List Char)) (hne : pieces ≠ [])
    (hshape : ∀ p ∈ pieces, ∃ s, p = pyStripL s ∧ p ≠ []) :
    pyStripL (intercalateL ['\n'] pieces) ≠ [] := by
  rcases pieces with _ | ⟨p, ps⟩
  · exact absurd rfl hne
  obtain ⟨s, hps, hpne⟩ := hshape p (List.mem_cons_self _ _)
  have hsp : pyStripL s ≠ [] := by rw [← hps]; exact hpne
  obtain ⟨c, hcmem, hcnws⟩ := strip_has_nonws hsp
  rw [← hps] at hcmem
  have hcj : c ∈ intercalateL ['\n'] (p :: ps) := by
    cases ps with
    | nil => exact hcmem
    | cons q qs =>
        show c ∈ p ++ ['\n'] ++ intercalateL ['\n'] (q :: qs)
        exact List.mem_append.mpr (Or.inl (List.mem_append.mpr (Or.inl hcmem)))
  exact strip_ne_nil_of_mem hcj hcnws

/-! ### Sequential noise pruning (claim C6) -/

lemma pruneBy_elem (p : Node → Bool) (t c i : String) (cs : NodeList) :
    pruneBy p (.elem t c i cs) = .elem t c i (pruneByL p cs) := rfl

lemma pruneByL_cons (p : Node → Bool) (n : Node) (rest : NodeList) :
    pruneByL p (.cons n rest) =
      if p n then pruneByL p rest
      else .cons (pruneBy p n) (pruneByL p rest) := rfl

lemma badAttr_pruneBy (q : Node → Bool) (n : Node) :
    badAttr (pruneBy q n) = badAttr n := by
  cases n <;> rfl

mutual
theorem pruneBy_pruneBy : ∀ n : Node,
    pruneBy badAttr (pruneBy badTag n) =
      pruneBy (fun m => badTag m || badAttr m) n
  | .text s => rfl
  | .elem t c i cs => by
      rw [pruneBy_elem, pruneBy_elem, pruneBy_elem, pruneByL_pruneByL cs]

theorem pruneByL_pruneByL : ∀ cs : NodeList,
    pruneByL badAttr (pruneByL badTag cs) =
      pruneByL (fun m => badTag m || badAttr m) cs
  | .nil => rfl
  | .cons n rest => by
      rw [pruneByL_cons, pruneByL_cons]
      by_cases hq : badTag n = true
      · rw [if_pos hq, if_pos (by simp [hq]), pruneByL_pruneByL rest]
      · rw [if_neg hq, pruneByL_cons, badAttr_pruneBy]
        by_cases hp : badAttr n = true
        · rw [if_pos hp, if_pos (by simp [hp]), pruneByL_pruneByL rest]
        · rw [if_neg hp,
            if_neg (by simp [Bool.eq_false_iff.mpr hq, Bool.eq_false_iff.mpr hp]),
            pruneBy_pruneBy n, pruneByL_pruneByL rest]
end

mutual
theorem pruneBy_congr (p q : Node → Bool) (hpq : ∀ m, p m = q m) :
    ∀ n : Node, pruneBy p n = pruneBy q n
  | .text s => rfl
  | .elem t c i cs => by
      rw [pruneBy_elem, pruneBy_elem, pruneByL_congr p q hpq cs]

theorem pruneByL_congr (p q : Node → Bool) (hpq : ∀ m, p m = q m) :
    ∀ cs : NodeList, pruneByL p cs = pruneByL q cs
  | .nil => rfl
  | .cons n rest => by
      rw [pruneByL_cons, pruneByL_cons, hpq n, pruneBy_congr p q hpq n,
        pruneByL_congr p q hpq rest]
end

/-! ### Spec-side predicates and concrete documents for the claims -/

lemma bool_eq_of_iff {a b : Bool} (h : a = true ↔ b = true) : a = b := by
  cases a <;> cases b <;> simp_all

lemma noise_pred_eq (n : Node) : (badTag n || badAttr n) = noiseSpecAmended n := by
  cases n with
  | text s => rfl
  | elem t c i cs =>
      apply bool_eq_of_iff
      simp only [badTag, badAttr, noiseSpecAmended, tagIs, strContains,
        Bool.or_eq_true]
      tauto

/-! ## Claim theorems -/

/-- Claim C1, counterexample.  The claim says that when pruning+filtering
reduce the cleaned text to empty, `parse_post` returns the rendered text
of the *original, unpruned* container (asserting `decompose` acts on a
private copy), hence a non-empty result whenever the raw text is
non-empty.  On `c1doc` the cleaned text is empty and the unpruned
container renders to the non-empty "이 게시물", yet `parse_post` returns
`""`: `decompose` mutated `body` in place, so the fallback re-renders the
pruned container. -/
theorem c1_fallback_counterexample :
    reconstructText (pruneNoise c1body) = [] ∧
    getTextNL c1body = "이 게시물".data ∧
    parse_post c1doc = "" := by decide

/-- Claim C1, amended.  When steps 0-6 produce an empty string, the
fallback returns the stripped rendering of the container *after* the
in-place noise prune (not the pre-prune container); the final output is
non-empty iff the pruned container still has a text piece. -/
theorem c1_fallback_amended (doc : NodeList) (body : Node)
    (hb : selectBody (candidatePool doc) = some body)
    (hempty : reconstructText (pruneNoise body) = []) :
    parse_post doc = ⟨pyStripL (getTextNL (pruneNoise body))⟩ ∧
    (parse_post doc ≠ "" ↔ textPieces (pruneNoise body) ≠ []) := by
  have hpp : parse_post doc = ⟨pyStripL (getTextNL (pruneNoise body))⟩ := by
    rw [parse_post_some hb, hempty]
    rfl
  refine ⟨hpp, ?_⟩
  rw [hpp]
  constructor
  · intro hne hp
    apply hne
    show (⟨pyStripL (getTextNL (pruneNoise body))⟩ : String) = ""
    have hg : getTextNL (pruneNoise body) = [] := by
      unfold getTextNL
      rw [hp]
      rfl
    rw [hg]
    rfl
  · intro hp hcontra
    have hdata : pyStripL (getTextNL (pruneNoise body)) = [] :=
      congrArg String.data hcontra
    exact absurd hdata
      (stripped_join_ne (textPieces (pruneNoise body)) hp
        (fun p hp2 => textPieces_shape _ p hp2))

/-- Claim C1, witness for the amended theorem, at the concrete `c1doc`. -/
theorem c1_fallback_amended_witness :
    parse_post c1doc = ⟨pyStripL (getTextNL (pruneNoise c1body))⟩ ∧
    (parse_post c1doc ≠ "" ↔ textPieces (pruneNoise c1body) ≠ []) :=
  c1_fallback_amended c1doc c1body rfl (by decide)

/-- Claim C2, counterexample.  The claim asserts the end-to-end output on
the scenario document is `"오늘의 운세 입니다."`; it is not. -/
theorem c2_scenario_counterexample :
    parse_post c2doc ≠ "오늘의 운세 입니다." := by decide

/-- Claim C2, amended.  On the scenario document the selector pool has
exactly one candidate, but `get_text("\n")` separates the two `<p>`
texts by a single newline, not a blank line, so the paragraph merge
produces *one* merged paragraph; it is dropped as short boilerplate,
the cleaned text is empty, and the no-loss fallback returns the raw
container text. -/
theorem c2_scenario_amended :
    (selectorCandidates c2doc).length = 1 ∧
    mergeGo [] (cleanLines (getTextNL (pruneNoise c2body)))
      = ["오늘의 운세 입니다 . 이 게시물을 공유해주세요".data] ∧
    parse_post c2doc = "오늘의 운세 입니다 .\n이 게시물을 공유해주세요" := by decide

/-- Claim C3.  Body selection is a stable maximum over the pooled
candidates: for every candidate list with at least two elements the
chosen body's rendered-text length is maximal, and every candidate
strictly before it in the pool has strictly smaller length (so on ties
the first encountered wins; a selector's position confers no other
priority). -/
theorem c3_stable_max (l : List Node) (h : 2 ≤ l.length) :
    ∃ b, selectBody l = some b ∧
      (∀ x ∈ l, textLen x ≤ textLen b) ∧
      ∃ pre post, l = pre ++ b :: post ∧ ∀ x ∈ pre, textLen x < textLen b := by
  cases l with
  | nil => simp at h
  | cons a xs =>
      rcases selectBody_spec
        (show selectBody (a :: xs) = some (pyMaxGo textLen a xs) from rfl) with
        ⟨h1, pre, post, h2, h3⟩
      exact ⟨pyMaxGo textLen a xs, rfl, h1, pre, post, h2, h3⟩

/-- Claim C3, witness at a concrete two-candidate pool. -/
theorem c3_stable_max_witness :
    ∃ b, selectBody [c3shortNode, c3longNode] = some b ∧
      (∀ x ∈ [c3shortNode, c3longNode], textLen x ≤ textLen b) ∧
      ∃ pre post, [c3shortNode, c3longNode] = pre ++ b :: post ∧
        ∀ x ∈ pre, textLen x < textLen b :=
  c3_stable_max [c3shortNode, c3longNode] (by decide)

/-- Claim C4.  The boilerplate filter keeps the paragraph order (it yields
a sublist) and drops a paragraph iff it is strictly under 120 characters
and contains one of the markers "이 게시물", "공유", "댓글", "출처";
paragraphs of length ≥ 120 are kept verbatim even with a marker. -/
theorem c4_boilerplate_iff (l : List (List Char)) (p : List Char) (hp : p ∈ l) :
    (filterBoiler l).Sublist l ∧
    (p ∈ filterBoiler l ↔ ¬(p.length < 120 ∧ hasMarker p = true)) := by
  refine ⟨filterBoiler_sublist l, ?_, ?_⟩
  · intro hmem hcond
    have hfalse := filterBoiler_mem_false l p hmem
    have htrue := (dropBoiler_iff p).mpr hcond
    rw [hfalse] at htrue
    exact absurd htrue (by decide)
  · intro hcond
    apply filterBoiler_mem_of l p hp
    cases hdb : dropBoiler p
    · rfl
    · exact absurd ((dropBoiler_iff p).mp hdb) hcond

/-- Claim C4, witness: a 200-character paragraph containing "공유". -/
theorem c4_boilerplate_iff_witness :
    (filterBoiler [p200]).Sublist [p200] ∧
    (p200 ∈ filterBoiler [p200] ↔ ¬(p200.length < 120 ∧ hasMarker p200 = true)) :=
  c4_boilerplate_iff [p200] p200 (List.mem_singleton.mpr rfl)

/-- Claim C5.  The three-substitution punctuation/spacing repair pass is
idempotent: applying it to its own output changes nothing. -/
theorem c5_repair_idempotent (s : String) :
    fixParagraph (fixParagraph s) = fixParagraph s := by
  show String.mk (fixParagraphL (fixParagraphL s.data))
      = String.mk (fixParagraphL s.data)
  exact congrArg String.mk (fixParagraphL_idem s.data)

/-- Claim C6, counterexample.  The claim says an element whose `id`
contains "social" is removed by the noise prune.  `c6social` has
`id="social_links"` (and no class): the claim's predicate marks it, but
`parse_post`'s prune keeps it — its text survives pruning, because the
source's selector list has `[class*='social']` but no `[id*='social']`. -/
theorem c6_noise_counterexample :
    noiseSpecClaim c6social = true ∧
    badAttr c6social = false ∧
    getTextNL (pruneNoise c6body) = "소셜 링크\n본문".data := by decide

/-- Claim C6, amended.  The two sequential `decompose` passes remove
exactly the subtrees whose root has one of the listed tags, a `class`
containing "share"/"social"/"ad", or an `id` containing "share"/"ad"
(an `id` containing only "social" is kept). -/
theorem c6_noise_amended (n : Node) :
    pruneNoise n = pruneBy noiseSpecAmended n := by
  rw [show pruneNoise n = pruneBy (fun m => badTag m || badAttr m) n from
    pruneBy_pruneBy n]
  exact pruneBy_congr _ _ noise_pred_eq n

/-- Claim C7.  If no structural selector matches and the block-level
fallback scan finds nothing, `parse_post` returns (without raising —
the function is total) the whole document's text with only line-level
normalization: its line list has no two adjacent blank lines and no
line contains two adjacent space/tab characters. -/
theorem c7_no_candidates_full_doc (doc : NodeList)
    (h1 : (selectorCandidates doc).isEmpty = true)
    (h2 : (blocksOf doc).isEmpty = true) :
    parse_post doc = normalizeFullDoc doc ∧
    noAdjBlanks (cleanLines (docTextNL doc)) = true ∧
    ∀ ln ∈ cleanLines (docTextNL doc), noDoubleSpTab ln = true := by
  have hpool : candidatePool doc = [] := by
    unfold candidatePool
    rw [if_pos h1]
    exact List.isEmpty_iff.mp h2
  refine ⟨parse_post_none (by rw [hpool]; rfl), collapseGo_noAdj _ _, ?_⟩
  intro ln hln
  rcases collapseGo_mem _ _ _ hln with h | ⟨x, hx⟩
  · rw [h]; rfl
  · rw [hx]; exact squeezeGo_noDouble x false

/-- Claim C7, witness at a selector-free document. -/
theorem c7_no_candidates_full_doc_witness :
    parse_post c7doc = normalizeFullDoc c7doc ∧
    noAdjBlanks (cleanLines (docTextNL c7doc)) = true ∧
    ∀ ln ∈ cleanLines (docTextNL c7doc), noDoubleSpTab ln = true :=
  c7_no_candidates_full_doc c7doc (by decide) (by decide)

/-- Claim C8.  Messages longer than 14000 characters are delivered as
exactly their first 14000 characters plus the fixed truncation notice
(total length exactly, hence at most, 14000 + notice length); messages
of at most 14000 characters are delivered unchanged. -/
theorem c8_message_cap (m : String) :
    (MAX_MESSAGE_LEN < m.length →
      capMessage m = pyTake m MAX_MESSAGE_LEN ++ truncationNotice ∧
      (capMessage m).length = MAX_MESSAGE_LEN + truncationNotice.length ∧
      (capMessage m).length ≤ MAX_MESSAGE_LEN + truncationNotice.length) ∧
    (m.length ≤ MAX_MESSAGE_LEN → capMessage m = m) := by
  constructor
  · intro h
    have hcap : capMessage m = pyTake m MAX_MESSAGE_LEN ++ truncationNotice := by
      unfold capMessage
      rw [if_pos h]
    have htklen : (pyTake m MAX_MESSAGE_LEN).length = MAX_MESSAGE_LEN := by
      show (m.data.take MAX_MESSAGE_LEN).length = MAX_MESSAGE_LEN
      rw [List.length_take]
      have : m.length = m.data.length := rfl
      omega
    have hlen : (capMessage m).length = MAX_MESSAGE_LEN + truncationNotice.length := by
      rw [hcap, String.length_append, htklen]
    exact ⟨hcap, hlen, le_of_eq hlen⟩
  · intro h
    unfold capMessage
    rw [if_neg (by omega)]

/-- Claim C8, witness at a 14001-character message. -/
theorem c8_message_cap_witness :
    capMessage longMsg = pyTake longMsg MAX_MESSAGE_LEN ++ truncationNotice ∧
    (capMessage longMsg).length = MAX_MESSAGE_LEN + truncationNotice.length ∧
    (capMessage longMsg).length ≤ MAX_MESSAGE_LEN + truncationNotice.length :=
  (c8_message_cap longMsg).1 (by
    have : longMsg.length = (List.replicate 14001 'a').length := rfl
    rw [MAX_MESSAGE_LEN, this, List.length_replicate]
    omega)

/-- Claim C9.  A line "93" followed by a line "%." joins to the paragraph
"93 %.", and the repair pass reconstructs it as "93%." — no internal
space before the percent sign or the period. -/
theorem c9_percent_repair :
    mergeGo [] ["93".data, "%.".data] = ["93 %.".data] ∧
    fixParagraph "93 %." = "93%." := by decide

/-- Claim C10.  For every `urljoin` that maps non-`data:` sources to
non-`data:` URLs (as `urllib.parse.urljoin` does for the script's HTTP
base URLs), `extract_mk_images` returns at most 4 URLs, duplicate-free,
as a sublist of the filtered candidate stream (first occurrences, in
document order), and every returned URL passes the extension filter,
contains none of the tokens logo/icon/sprite/blank, is not a `data:`
URI, and is the `urljoin`-absolutized form of some `src` attribute. -/
theorem c10_extract_images (urljoin : String → String → String)
    (hj : ∀ b s, "data:".data.isPrefixOf s.data = false →
      "data:".data.isPrefixOf (urljoin b s).data = false)
    (base : String) (imgs : List ImgTag) :
    (extract_mk_images urljoin base imgs).length ≤ 4 ∧
    (extract_mk_images urljoin base imgs).Nodup ∧
    List.Sublist (extract_mk_images urljoin base imgs)
      (imgCandidates urljoin base imgs) ∧
    ∀ u ∈ extract_mk_images urljoin base imgs,
      extOkSearch u.data = true ∧ badToken u.data = false ∧
      "data:".data.isPrefixOf u.data = false ∧ ∃ src, u = urljoin base src := by
  have hsub : List.Sublist (extract_mk_images urljoin base imgs)
      (imgCandidates urljoin base imgs) :=
    (List.take_sublist _ _).trans (dedupFirst_sublist _ [])
  refine ⟨?_, ?_, hsub, ?_⟩
  · exact (dedupFirst [] (imgCandidates urljoin base imgs)).length_take_le 4
  · exact (dedupFirst_nodup (imgCandidates urljoin base imgs) []).sublist
      (List.take_sublist _ _)
  · intro u hu
    obtain ⟨he, hbt, src, hsrc, hdata⟩ :=
      imgCandidates_mem urljoin base imgs u (hsub.subset hu)
    refine ⟨he, hbt, ?_, src, hsrc⟩
    rw [hsrc]
    exact hj base src hdata

/-- Claim C10, witness with the identity `urljoin` and a concrete tag list. -/
theorem c10_extract_images_witness :
    (extract_mk_images (fun _ s => s) "http://example.com/post" c10imgs).length ≤ 4 ∧
    (extract_mk_images (fun _ s => s) "http://example.com/post" c10imgs).Nodup ∧
    List.Sublist (extract_mk_images (fun _ s => s) "http://example.com/post" c10imgs)
      (imgCandidates (fun _ s => s) "http://example.com/post" c10imgs) ∧
    ∀ u ∈ extract_mk_images (fun _ s => s) "http://example.com/post" c10imgs,
      extOkSearch u.data = true ∧ badToken u.data = false ∧
      "data:".data.isPrefixOf u.data = false ∧ ∃ src, u = (fun _ s => s) "http://example.com/post" src :=
  c10_extract_images (fun _ s => s) (fun _ _ h => h) "http://example.com/post" c10imgs
